import Mathlib

/-!
# Verification of the sorting-sorted staging-and-matching engine

A shallow embedding of the core of the `sorting-sorted` repository
(`engine.py`, `tab_gallery_sorter.py`, `gallery_app.py`,
`tab_time_discovery.py`) together with proofs about the staging ledger,
the commit engine, the temporal matcher, the undo log and the folder-tag
snapshot.

Modelling conventions:
* The SQLite tables (`staging_area`, `processed_log`, `folder_tags`,
  `categories`, `profile_categories`) are modelled as lists of records;
  `INSERT OR REPLACE` on a primary key removes the conflicting row and
  appends the new one, exactly as SQLite does.
* The filesystem is a set of file paths plus a set of directory paths.
  `shutil.copy2` / `shutil.move` may raise an `OSError`; this fault model
  is represented by a list `failing` of source paths on which those calls
  raise.  `os.chmod` (in `fix_permissions`) changes only permission
  metadata, which the model does not track.
* Python `str(int)` formatting is embedded by an explicit decimal
  renderer `decStr` (with `fmt3` for the `" :03d"` form), and proved
  injective via a decimal decoder.
* File modification times and the time window are modelled as integers;
  only their linear order matters to the temporal matcher.
-/

/-! ## Decimal rendering: Python `str(n)` and `f"{n:03d}"` -/

/-- Decimal digits of `n`, most significant first, with explicit fuel so
that the definition reduces by `rfl`/`decide`.  With `fuel ≥ n` this is
exactly the decimal rendering Python's `str` produces. -/
def decChars : Nat → Nat → List Char
  | 0, n => [Nat.digitChar (n % 10)]
  | fuel + 1, n =>
    if n < 10 then [Nat.digitChar n]
    else decChars fuel (n / 10) ++ [Nat.digitChar (n % 10)]

/-- Python `str(n)` for a natural number. -/
def decStr (n : Nat) : String := String.mk (decChars n n)

/-- Python `f"{n:03d}"`: decimal, left-padded with zeros to width 3. -/
def fmt3 (n : Nat) : String :=
  let s := decStr n
  if s.length < 3 then String.mk (List.replicate (3 - s.length) '0' ++ s.data) else s

/-- Decimal decoder used to prove `decStr` injective. -/
def decVal (cs : List Char) : Nat := cs.foldl (fun a c => a * 10 + (c.toNat - 48)) 0

theorem decVal_foldl (a : Nat) (cs : List Char) :
    cs.foldl (fun a c => a * 10 + (c.toNat - 48)) a =
      a * 10 ^ cs.length + decVal cs := by
  induction cs generalizing a with
  | nil => simp [decVal]
  | cons c cs ih =>
    simp only [List.foldl_cons, decVal, List.length_cons]
    rw [ih, ih (0 * 10 + (c.toNat - 48))]
    ring

theorem decVal_append_singleton (cs : List Char) (c : Char) :
    decVal (cs ++ [c]) = 10 * decVal cs + (c.toNat - 48) := by
  simp only [decVal, List.foldl_append, List.foldl_cons, List.foldl_nil]
  rw [decVal_foldl]
  simp [decVal]
  ring

theorem digitChar_toNat (d : Nat) (hd : d < 10) : (Nat.digitChar d).toNat = 48 + d := by
  interval_cases d <;> decide

theorem decVal_decChars (fuel n : Nat) (h : n ≤ fuel) : decVal (decChars fuel n) = n := by
  induction fuel generalizing n with
  | zero =>
    have hn : n = 0 := Nat.le_zero.mp h
    subst hn
    decide
  | succ f ih =>
    by_cases hlt : n < 10
    · simp only [decChars, if_pos hlt, decVal, List.foldl_cons, List.foldl_nil]
      rw [digitChar_toNat n hlt]
      omega
    · simp only [decChars, if_neg hlt]
      rw [decVal_append_singleton]
      have h10 : 10 ≤ n := Nat.le_of_not_lt hlt
      have hdiv : n / 10 ≤ f := by
        have : n / 10 < n := Nat.div_lt_self (by omega) (by omega)
        omega
      rw [ih (n / 10) hdiv, digitChar_toNat (n % 10) (Nat.mod_lt n (by omega))]
      omega

theorem decStr_injective : Function.Injective decStr := by
  intro a b hab
  have h : decChars a a = decChars b b := congrArg String.data hab
  have ha := decVal_decChars a a le_rfl
  have hb := decVal_decChars b b le_rfl
  rw [← ha, ← hb, h]

/-! ## String and path helpers (os.path) -/

/-- Embeds `os.path.join a b` for a relative second component. -/
def joinPath (a b : String) : String := a ++ "/" ++ b

/-- Embeds `os.path.basename`: the component after the last `/` (the whole
string when there is no `/`). -/
def pyBasename (p : String) : String :=
  String.mk ((p.data.reverse.takeWhile (fun c => !(c == '/'))).reverse)

/-- Embeds `os.path.dirname`: everything before the last `/` (empty when there
is no `/`).  (CPython preserves a leading-slash-only head, e.g.
`dirname("/c") = "/"`; this model returns `""` there, which combined
with `joinPath` produces the same joined paths.) -/
def pyDirname (p : String) : String :=
  let rev := p.data.reverse
  let suf := rev.takeWhile (fun c => !(c == '/'))
  match rev.drop suf.length with
  | '/' :: rest => String.mk rest.reverse
  | _ => ""

/-- Python `str.startswith`. -/
def pyStartsWith (s pre : String) : Bool := pre.data.isPrefixOf s.data

/-- Embeds `os.path.splitext`: split at the last `.` that occurs after the last
`/`; returns `(root, extension-with-dot)`.  (The CPython special case
for names consisting only of leading dots is not modelled; no name in
this system hits it.) -/
def splitExt (s : String) : String × String :=
  let rev := s.data.reverse
  let suf := rev.takeWhile (fun c => !(c == '.') && !(c == '/'))
  match rev.drop suf.length with
  | '.' :: rest => (String.mk rest.reverse, String.mk ('.' :: suf.reverse))
  | _ => (s, "")

theorem strData_append (a b : String) : (a ++ b).data = a.data ++ b.data := rfl

theorem append_right_injective (a : String) : Function.Injective (fun s => a ++ s) := by
  intro x y hxy
  have h : a.data ++ x.data = a.data ++ y.data := congrArg String.data hxy
  have h2 : x.data = y.data := List.append_cancel_left h
  cases x; cases y; exact congrArg String.mk h2

theorem append_left_injective (a : String) : Function.Injective (fun s => s ++ a) := by
  intro x y hxy
  have h : x.data ++ a.data = y.data ++ a.data := congrArg String.data hxy
  have h2 : x.data = y.data := List.append_cancel_right h
  cases x; cases y; exact congrArg String.mk h2

/-- The candidate names `base ++ "_" ++ decStr k ++ ext` produced by the
collision-resolution loops are pairwise distinct. -/
theorem suffixName_injective (base ext : String) :
    Function.Injective (fun k => base ++ "_" ++ decStr k ++ ext) := by
  intro x y hxy
  have h1 : base ++ "_" ++ decStr x = base ++ "_" ++ decStr y :=
    append_left_injective ext hxy
  have h2 : decStr x = decStr y := append_right_injective (base ++ "_") h1
  exact decStr_injective h2

/-- Taking the first `a.length + 1` characters of `joinPath a nm`
recovers `a ++ "/"`; used to show commit destinations never collide with
scanned source paths outside the output root. -/
theorem joinPath_take (a nm : String) :
    (joinPath a nm).data.take (a.length + 1) = (a ++ "/").data := by
  have h : (joinPath a nm).data = (a ++ "/").data ++ nm.data := rfl
  have hlen : (a ++ "/").data.length = a.length + 1 := by
    rw [strData_append, List.length_append]
    rfl
  rw [h, ← hlen, List.take_left]

/-! ## The collision-resolution loop

Both staging (`action_tag`) and the commit engine resolve name
collisions with the same `while` loop:

    while <name is taken>:
        name = f"{base}_{suffix}{ext}"
        suffix += 1

`findFreeBy` is that loop with explicit fuel; `mk k` builds the
candidate carrying suffix `k`. -/

def findFreeBy (bad : String → Bool) (mk : Nat → String) :
    Nat → String → Nat → String
  | fuel, cur, nxt =>
    if !(bad cur) then cur
    else
      match fuel with
      | 0 => cur
      | f + 1 => findFreeBy bad mk f (mk nxt) (nxt + 1)

theorem findFreeBy_not_bad (bad : String → Bool) (mk : Nat → String) :
    ∀ (fuel : Nat) (cur : String) (nxt : Nat),
      (bad cur = false ∨ ∃ j, j < fuel ∧ bad (mk (nxt + j)) = false) →
      bad (findFreeBy bad mk fuel cur nxt) = false := by
  intro fuel
  induction fuel with
  | zero =>
    intro cur nxt h
    have hcur : bad cur = false := by
      rcases h with h | ⟨j, hj, _⟩
      · exact h
      · omega
    simp [findFreeBy, hcur]
  | succ f ih =>
    intro cur nxt h
    by_cases hcur : bad cur = false
    · simp [findFreeBy, hcur]
    · have hcur' : bad cur = true := by
        cases hb : bad cur
        · exact absurd hb hcur
        · rfl
      rcases h with h | ⟨j, hj, hfree⟩
      · exact absurd h hcur
      · have hstep : findFreeBy bad mk (f + 1) cur nxt =
            findFreeBy bad mk f (mk nxt) (nxt + 1) := by
          simp [findFreeBy, hcur']
        rw [hstep]
        rcases Nat.eq_zero_or_pos j with hj0 | hjpos
        · subst hj0
          exact ih (mk nxt) (nxt + 1) (Or.inl (by simpa using hfree))
        · refine ih (mk nxt) (nxt + 1) (Or.inr ⟨j - 1, by omega, ?_⟩)
          have : nxt + 1 + (j - 1) = nxt + j := by omega
          rw [this]
          exact hfree

/-- Pigeonhole: among the suffixed candidates `1, …, taken.length + 1`
at least one name is not in `taken`. -/
theorem exists_free_suffix (taken : List String) (base ext : String) :
    ∃ k, 1 ≤ k ∧ k ≤ taken.length + 1 ∧ (base ++ "_" ++ decStr k ++ ext) ∉ taken := by
  by_contra hcon
  push_neg at hcon
  set cand := fun k => base ++ "_" ++ decStr k ++ ext with hcand
  have hsub : ∀ x ∈ (List.range (taken.length + 1)).map (fun i => cand (i + 1)), x ∈ taken := by
    intro x hx
    rcases List.mem_map.mp hx with ⟨i, hi, rfl⟩
    have hi' : i < taken.length + 1 := List.mem_range.mp hi
    exact hcon (i + 1) (by omega) (by omega)
  have hnodup : ((List.range (taken.length + 1)).map (fun i => cand (i + 1))).Nodup := by
    refine List.Nodup.map ?_ (List.nodup_range _)
    intro x y hxy
    have := suffixName_injective base ext hxy
    omega
  have hlen : ((List.range (taken.length + 1)).map (fun i => cand (i + 1))).length =
      taken.length + 1 := by simp
  have hcard1 : ((List.range (taken.length + 1)).map (fun i => cand (i + 1))).toFinset.card =
      taken.length + 1 := by
    rw [List.toFinset_card_of_nodup hnodup, hlen]
  have hsubset : ((List.range (taken.length + 1)).map (fun i => cand (i + 1))).toFinset ⊆
      taken.toFinset := by
    intro x hx
    exact List.mem_toFinset.mpr (hsub x (List.mem_toFinset.mp hx))
  have hle := Finset.card_le_card hsubset
  have hle2 := taken.toFinset_card_le
  omega

/-! ## Data model: the SQLite store of `engine.py` -/

/-- A row of `staging_area (original_path PK, target_category, new_name,
is_marked)`. -/
structure StagingEntry where
  path : String
  cat : String
  name : String
  marked : Bool
deriving DecidableEq, Repr

/-- A row of `processed_log (source_path PK, category, action_type)`. -/
structure ProcLogRec where
  source : String
  cat : String
  action : String
deriving DecidableEq, Repr

/-- A row of `folder_tags (profile, folder_path, filename PK triple,
category, tag_index)`. -/
structure FolderTagRec where
  profile : String
  folder : String
  filename : String
  cat : String
  tagIndex : Nat
deriving DecidableEq, Repr

/-- The persistent store (the tables the claims touch). -/
structure DB where
  staging : List StagingEntry
  processedLog : List ProcLogRec
  folderTags : List FolderTagRec
  categories : List String
  profileCategories : List (String × String)
deriving DecidableEq, Repr

/-- Embeds `get_staged_data` lookup: the dict is keyed by `original_path`. -/
def lookupStaged (staging : List StagingEntry) (p : String) : Option StagingEntry :=
  staging.find? (fun e => e.path == p)

/-- Embeds `SorterEngine.stage_image`: `INSERT OR REPLACE INTO staging_area
VALUES (?, ?, ?, 1)`. -/
def stageImage (db : DB) (p cat name : String) : DB :=
  { db with staging :=
      db.staging.filter (fun e => !(e.path == p)) ++ [⟨p, cat, name, true⟩] }

/-- Embeds `SorterEngine.clear_staged_item`: `DELETE FROM staging_area WHERE
original_path = ?`. -/
def clearStagedItem (db : DB) (p : String) : DB :=
  { db with staging := db.staging.filter (fun e => !(e.path == p)) }

/-- Embeds `SorterEngine.clear_staging_area`: `DELETE FROM staging_area`. -/
def clearStagingArea (db : DB) : DB := { db with staging := [] }

/-- Embeds `INSERT OR REPLACE INTO processed_log` (keyed by `source_path`). -/
def insertLog (log : List ProcLogRec) (r : ProcLogRec) : List ProcLogRec :=
  log.filter (fun q => !(q.source == r.source)) ++ [r]

/-- Embeds `INSERT OR REPLACE INTO folder_tags` (keyed by
`(profile, folder_path, filename)`). -/
def insertFolderTag (l : List FolderTagRec) (r : FolderTagRec) : List FolderTagRec :=
  l.filter (fun q =>
    !(q.profile == r.profile && q.folder == r.folder && q.filename == r.filename)) ++ [r]

/-- Embeds `SorterEngine.delete_category`: deletes the category row (from the
profile table or the legacy table) and then
`DELETE FROM staging_area WHERE target_category = ?`. -/
def deleteCategory (db : DB) (name : String) (profile : Option String) : DB :=
  let db1 :=
    match profile with
    | some pr =>
      { db with profileCategories :=
          db.profileCategories.filter (fun q => !(q.1 == pr && q.2 == name)) }
    | none => { db with categories := db.categories.filter (fun c => !(c == name)) }
  { db1 with staging := db1.staging.filter (fun e => !(e.cat == name)) }

/-! ## Filesystem model -/

/-- The filesystem: existing files, existing directories, and the fault
model — `shutil.copy2`/`shutil.move`/`os.remove` raise an `OSError`
exactly on the source paths listed in `failing`. -/
structure FS where
  files : List String
  dirs : List String
  failing : List String
deriving DecidableEq, Repr

/-- Embeds `os.path.exists`. -/
def FS.existsPath (fs : FS) (p : String) : Bool :=
  fs.files.contains p || fs.dirs.contains p

def FS.addFile (fs : FS) (p : String) : FS :=
  if fs.files.contains p then fs else { fs with files := p :: fs.files }

def FS.removeFile (fs : FS) (p : String) : FS :=
  { fs with files := fs.files.filter (fun q => !(q == p)) }

/-- Embeds `os.makedirs(d, exist_ok=True)`. -/
def FS.makedirs (fs : FS) (d : String) : FS :=
  if fs.dirs.contains d then fs else { fs with dirs := d :: fs.dirs }

/-- Embeds `shutil.copy2 src dst` (content copy; presence-wise the destination
file exists afterwards). -/
def FS.copy2 (fs : FS) (src dst : String) : Except String FS :=
  if fs.failing.contains src then Except.error ("copy failed: " ++ src)
  else Except.ok (fs.addFile dst)

/-- Embeds `shutil.move src dst`. -/
def FS.move (fs : FS) (src dst : String) : Except String FS :=
  if fs.failing.contains src then Except.error ("move failed: " ++ src)
  else Except.ok ((fs.removeFile src).addFile dst)

/-- Embeds `os.remove p`. -/
def FS.removePath (fs : FS) (p : String) : Except String FS :=
  if fs.failing.contains p then Except.error ("remove failed: " ++ p)
  else Except.ok (fs.removeFile p)

/-- Embeds `SorterEngine.fix_permissions`: `os.chmod(path, 0o777)` with all
errors swallowed.  Permission bits are metadata the model does not
track, so this is the identity on the modelled state. -/
def fixPermissions (fs : FS) (_p : String) : FS := fs

/-! ## Staging with collision resolution

`tab_gallery_sorter.action_tag` (the loop variant) and
`gallery_app.action_tag` (the single-suffix variant). -/

/-- Embeds `tab_gallery_sorter.action_tag`: computes
`f"{selected_cat}_{index_val:03d}{ext}"`, collects the staged names of
the same category and checks the eventual destination
`path_o/selected_cat/new_name`; while the name is taken it retries with
`f"{base_name}_{suffix}{ext}"`, incrementing the suffix.  `destNames` is
the set of file names present in the destination directory
`path_o/selected_cat` (so `os.path.exists(dest_path)` is membership in
it).  Returns the resolved name and the collision flag the caller is
signalled with. -/
def actionTagT5 (stagedNames destNames : List String) (cat : String) (idx : Nat)
    (ext : String) : String × Bool :=
  let base := cat ++ "_" ++ fmt3 idx
  let name0 := base ++ ext
  let bad : String → Bool := fun nm => decide (nm ∈ stagedNames ∨ nm ∈ destNames)
  (findFreeBy bad (fun k => base ++ "_" ++ decStr k ++ ext)
      (stagedNames.length + destNames.length + 2) name0 1,
    bad name0)

/-- The staged names of a category, as `gallery_app.action_tag` builds
them: `{v['name'] for v in staged.values() if v['cat'] == cat}` (a set,
hence deduplicated). -/
def stagedNamesOf (staging : List StagingEntry) (cat : String) : List String :=
  ((staging.filter (fun e => e.cat == cat)).map (fun e => e.name)).dedup

/-- Embeds `gallery_app.action_tag`: on a collision it applies a single suffix
`len(staged_names) + 1` and does **not** re-check the result. -/
def actionTagGallery (staging : List StagingEntry) (destNames : List String)
    (activeCat : String) (idx : Nat) (ext : String) : String :=
  let name0 := activeCat ++ "_" ++ fmt3 idx ++ ext
  let stagedNames := stagedNamesOf staging activeCat
  if name0 ∈ stagedNames ∨ name0 ∈ destNames then
    activeCat ++ "_" ++ fmt3 idx ++ "_" ++ decStr (stagedNames.length + 1) ++ ext
  else name0

/-! ## The temporal matcher (`tab_time_discovery.render`, step 2) -/

/-- A candidate file with its modification time. -/
structure Cand where
  path : String
  mtime : Int
deriving DecidableEq, Repr

/-- A reported match `{'path': …, 'delta': …}`. -/
structure MatchRec where
  path : String
  delta : Int
deriving DecidableEq, Repr

/-- Ordering key of `sorted(all_matches, key=lambda x: x['delta'])`. -/
def matchLE (a b : MatchRec) : Prop := a.delta ≤ b.delta

instance : DecidableRel matchLE := fun a b => inferInstanceAs (Decidable (a.delta ≤ b.delta))

instance : IsTotal MatchRec matchLE := ⟨fun a b => Int.le_total a.delta b.delta⟩

instance : IsTrans MatchRec matchLE := ⟨fun _ _ _ hab hbc => le_trans hab hbc⟩

/-- The pre-sort list `all_matches`: candidates scanned in input order,
kept when `|target_mtime − mtime| ≤ threshold`, each carrying its
delta. -/
def matchPool (tTime : Int) (cands : List Cand) (threshold : Int) : List MatchRec :=
  cands.foldr
    (fun c acc =>
      if |tTime - c.mtime| ≤ threshold then ⟨c.path, |tTime - c.mtime|⟩ :: acc else acc)
    []

/-- Embeds `find_matches`: filter to the window, then
`sorted(all_matches, key=lambda x: x['delta'])`.  Python's `sorted` is a
stable sort; `List.insertionSort` with a total preorder is stable. -/
def findMatches (tTime : Int) (cands : List Cand) (threshold : Int) : List MatchRec :=
  List.insertionSort matchLE (matchPool tTime cands threshold)

/-! ## Commit engine (`commit_global`, `commit_batch`) -/

/-- Destination resolution in both commit loops:
`final_dst = os.path.join(output_root, name)`, then while
`os.path.exists(final_dst)` retry `output_root/{root}_{c}{ext}` with an
incrementing counter.  Note the name is joined to the output root
directly — not to `output_root/<category>`. -/
def resolveDst (fs : FS) (outputRoot name : String) : String :=
  let dst0 := joinPath outputRoot name
  if fs.existsPath dst0 then
    let pr := splitExt name
    findFreeBy (fun d => fs.existsPath d)
      (fun k => joinPath outputRoot (pr.1 ++ "_" ++ decStr k ++ pr.2))
      (fs.files.length + fs.dirs.length + 2) dst0 1
  else dst0

/-- Substring test (`"_DELETED" in root`). -/
def hasInfixChars (pat : List Char) : List Char → Bool
  | [] => pat.isEmpty
  | c :: rest => pat.isPrefixOf (c :: rest) || hasInfixChars pat rest

def strContainsSub (s pat : String) : Bool := hasInfixChars pat.data s.data

def strEndsWith (s t : String) : Bool := t.data.isSuffixOf s.data

/-- Embeds `SorterEngine.get_images(root, recursive=True)`, abstracted over the
modelled file set: the `os.walk` of the real scanner enumerates exactly
the files below `root`, skipping any directory whose path contains
`"_DELETED"`; a file qualifies when its lowercased name ends in one of
the fixed image extensions.  The result is sorted, as in the source. -/
def getImagesRec (fs : FS) (root : String) : List String :=
  let exts := [".jpg", ".jpeg", ".png", ".webp", ".bmp", ".tiff"]
  List.insertionSort (fun a b : String => a ≤ b)
    (fs.files.filter (fun p =>
      (p.data.take (root.length + 1) == (root ++ "/").data) &&
      !(strContainsSub (pyDirname p) "_DELETED") &&
      exts.any (fun e => strEndsWith p.toLower e)))

/-- First `_(\d+)` match of `re.search` in `save_folder_tags`: scan for
the leftmost `_` that is followed by a digit and read the maximal digit
run after it. -/
def takeDigitsVal (acc : Nat) : List Char → Nat
  | [] => acc
  | c :: rest => if c.isDigit then takeDigitsVal (acc * 10 + (c.toNat - 48)) rest else acc

def findUnderscoreNum : List Char → Option Nat
  | [] => none
  | c :: rest =>
    if c == '_' then
      match rest with
      | d :: _ => if d.isDigit then some (takeDigitsVal 0 rest) else findUnderscoreNum rest
      | [] => none
    else findUnderscoreNum rest

/-- Embeds `save_folder_tags` index extraction:
`match = re.search(r'_(\d+)', new_name); int(match.group(1)) if match else 0`. -/
def extractTagIndex (name : String) : Nat := (findUnderscoreNum name.data).getD 0

/-- The row `save_folder_tags` persists for a staged entry:
`(profile, folder_path, filename, category, tag_index)`. -/
def folderTagOf (pr folder : String) (e : StagingEntry) : FolderTagRec :=
  ⟨pr, folder, pyBasename e.path, e.cat, extractTagIndex e.name⟩

/-- Embeds `SorterEngine.save_folder_tags`: for every staged entry whose path
starts with `folder_path`, persist
`(profile, folder_path, basename, category, extracted index)`; returns
unchanged when nothing is staged. -/
def saveFolderTags (db : DB) (folderPath : String) (profile : Option String) : DB :=
  if db.staging.isEmpty then db
  else
    let pr := profile.getD "Default"
    { db with folderTags :=
        db.staging.foldl (fun acc e =>
          if pyStartsWith e.path folderPath then
            insertFolderTag acc (folderTagOf pr folderPath e)
          else acc) db.folderTags }

/-- The per-entry loop of `commit_global` (step 1): skip missing
sources, resolve the destination against the live filesystem, copy or
move, fix permissions, append to `processed_log`.  On an `OSError` the
exception propagates (`Except.error`), carrying the filesystem as
mutated so far. -/
def commitGlobalGo (op outputRoot : String) :
    List StagingEntry → List ProcLogRec → FS → Except (String × FS) (List ProcLogRec × FS)
  | [], log, fs => Except.ok (log, fs)
  | e :: rest, log, fs =>
    if fs.existsPath e.path then
      let dst := resolveDst fs outputRoot e.name
      match (if op == "Copy" then fs.copy2 e.path dst else fs.move e.path dst) with
      | Except.error m => Except.error (m, fs)
      | Except.ok fs1 =>
        commitGlobalGo op outputRoot rest (insertLog log ⟨e.path, e.cat, op⟩)
          (fixPermissions fs1 dst)
    else commitGlobalGo op outputRoot rest log fs

/-- The cleanup loop of `commit_global` (step 2): every scanned file
without a staged entry is kept, moved to `source_root/unused`, or
deleted, according to the cleanup mode. -/
def cleanupGlobal (stagedPaths : List String) (sourceRoot cleanupMode : String) :
    List String → FS → Except (String × FS) FS
  | [], fs => Except.ok fs
  | p :: rest, fs =>
    if stagedPaths.contains p then cleanupGlobal stagedPaths sourceRoot cleanupMode rest fs
    else if cleanupMode == "Move to Unused" then
      let unusedDir := joinPath sourceRoot "unused"
      let fs1 := fs.makedirs unusedDir
      let dest := joinPath unusedDir (pyBasename p)
      match fs1.move p dest with
      | Except.error m => Except.error (m, fs1)
      | Except.ok fs2 =>
        cleanupGlobal stagedPaths sourceRoot cleanupMode rest (fixPermissions fs2 dest)
    else if cleanupMode == "Delete" then
      match fs.removePath p with
      | Except.error m => Except.error (m, fs)
      | Except.ok fs2 => cleanupGlobal stagedPaths sourceRoot cleanupMode rest fs2
    else cleanupGlobal stagedPaths sourceRoot cleanupMode rest fs

/-- Embeds `SorterEngine.commit_global`.  Reads the staged snapshot, saves
folder tags when a source root is given, creates the output root if
missing, runs the item loop, then the cleanup pass, and finally
`DELETE FROM staging_area` — the whole ledger, not only the processed
entries.  On an exception the connection is closed without `commit`, so
the staging/processed-log mutations roll back (folder tags were saved on
their own connection and persist); the filesystem keeps its partial
mutations. -/
def commitGlobal (db : DB) (fs : FS) (outputRoot cleanupMode op : String)
    (sourceRoot : Option String) (profile : Option String) :
    Option String × DB × FS :=
  let data := db.staging
  let db1 :=
    match sourceRoot with
    | some sr => saveFolderTags db sr profile
    | none => db
  let fs0 := if fs.existsPath outputRoot then fs else fs.makedirs outputRoot
  match commitGlobalGo op outputRoot data db1.processedLog fs0 with
  | Except.error em => (some em.1, db1, em.2)
  | Except.ok (log1, fs1) =>
    match (match cleanupMode == "Keep", sourceRoot with
           | false, some sr =>
             cleanupGlobal (data.map (fun e : StagingEntry => e.path)) sr cleanupMode
               (getImagesRec fs1 sr) fs1
           | _, _ => Except.ok fs1) with
    | Except.error em => (some em.1, db1, em.2)
    | Except.ok fs2 => (none, { db1 with processedLog := log1, staging := [] }, fs2)

/-- The cleanup branch of `commit_batch` (CASE B): the `unused` folder is
a sibling of the file itself. -/
def batchCleanup (cleanupMode : String) (p : String) (fs : FS) :
    Except (String × FS) FS :=
  if cleanupMode == "Move to Unused" then
    let unusedDir := joinPath (pyDirname p) "unused"
    let fs1 := fs.makedirs unusedDir
    let dest := joinPath unusedDir (pyBasename p)
    match fs1.move p dest with
    | Except.error m => Except.error (m, fs1)
    | Except.ok fs2 => Except.ok (fixPermissions fs2 dest)
  else if cleanupMode == "Delete" then
    match fs.removePath p with
    | Except.error m => Except.error (m, fs)
    | Except.ok fs2 => Except.ok fs2
  else Except.ok fs

/-- The per-file loop of `commit_batch`: missing files are skipped
(`continue`); a staged **and marked** file is committed and its ledger
row deleted; otherwise the cleanup policy applies.  `data` is the
snapshot read once at the start; `st` is the live `staging_area`. -/
def commitBatchGo (data : List StagingEntry) (op outputRoot cleanupMode : String) :
    List String → List StagingEntry → List ProcLogRec → FS →
    Except (String × FS) (List StagingEntry × List ProcLogRec × FS)
  | [], st, log, fs => Except.ok (st, log, fs)
  | p :: rest, st, log, fs =>
    if !(fs.existsPath p) then commitBatchGo data op outputRoot cleanupMode rest st log fs
    else
      match lookupStaged data p with
      | some info =>
        if info.marked then
          let dst := resolveDst fs outputRoot info.name
          match (if op == "Copy" then fs.copy2 p dst else fs.move p dst) with
          | Except.error m => Except.error (m, fs)
          | Except.ok fs1 =>
            commitBatchGo data op outputRoot cleanupMode rest
              (st.filter (fun e => !(e.path == p)))
              (insertLog log ⟨p, info.cat, op⟩) (fixPermissions fs1 dst)
        else
          match batchCleanup cleanupMode p fs with
          | Except.error em => Except.error em
          | Except.ok fs1 => commitBatchGo data op outputRoot cleanupMode rest st log fs1
      | none =>
        match batchCleanup cleanupMode p fs with
        | Except.error em => Except.error em
        | Except.ok fs1 => commitBatchGo data op outputRoot cleanupMode rest st log fs1

/-- Embeds `SorterEngine.commit_batch`.  On success the per-file `DELETE`s and
log inserts are committed; on an exception the connection rolls back
(the store is unchanged) while the filesystem keeps its partial
mutations. -/
def commitBatch (db : DB) (fs : FS) (fileList : List String)
    (outputRoot cleanupMode op : String) : Option String × DB × FS :=
  let data := db.staging
  let fs0 := if fs.existsPath outputRoot then fs else fs.makedirs outputRoot
  match commitBatchGo data op outputRoot cleanupMode fileList db.staging db.processedLog fs0 with
  | Except.error em => (some em.1, db, em.2)
  | Except.ok (st, log, fs1) => (none, { db with staging := st, processedLog := log }, fs1)

/-- The filename-to-path map `restore_folder_tags` builds from the
scanned images: the **first** file with each basename wins. -/
def buildFnameMap (allImages : List String) : List (String × String) :=
  allImages.foldl (fun m p =>
    let fn := pyBasename p
    if (m.find? (fun q => q.1 == fn)).isSome then m else m ++ [(fn, p)])
    ([] : List (String × String))

/-- One restore iteration: look the saved filename up among the scanned
files and, when the matched path has no existing ledger row, re-stage it
with the freshly computed name `f"{cat}_{index:03d}{ext}"`. -/
def restoreStep (fnameToPath : List (String × String)) (acc : DB) (r : FolderTagRec) : DB :=
  match fnameToPath.find? (fun q => q.1 == r.filename) with
  | none => acc
  | some fp =>
    match lookupStaged acc.staging fp.2 with
    | some _ => acc
    | none =>
      stageImage acc fp.2 r.cat (r.cat ++ "_" ++ fmt3 r.tagIndex ++ (splitExt r.filename).2)

/-- Embeds `SorterEngine.restore_folder_tags`: load the saved rows for
`(profile, folder_path)` and run `restoreStep` over them. -/
def restoreFolderTags (db : DB) (folderPath : String) (allImages : List String)
    (profile : Option String) : DB :=
  let pr := profile.getD "Default"
  let savedRows := db.folderTags.filter (fun r => r.profile == pr && r.folder == folderPath)
  savedRows.foldl (restoreStep (buildFnameMap allImages)) db

/-! ## Undo log (`gallery_app`) -/

/-- The string-tagged undo dicts of `gallery_app`, as a sum type: `tag`
and `untag` carry `path`/`category`/`name`/`index`; `delete` carries the
path. -/
inductive UndoRec where
  | tagRec (path category name : String) (index : Nat)
  | untagRec (path category name : String) (index : Option Nat)
  | deleteRec (path : String)
deriving DecidableEq, Repr

/-- The session state `action_undo` touches: store, filesystem, and the
undo stack (`state.undo_stack`, most recent action last). -/
structure GalleryState where
  db : DB
  fs : FS
  undoStack : List UndoRec
deriving DecidableEq, Repr

/-- The trash location `delete_to_trash` moves a file to and
`action_undo` restores it from:
`os.path.join(os.path.dirname(p), "_DELETED", os.path.basename(p))`. -/
def trashPathOf (p : String) : String :=
  joinPath (joinPath (pyDirname p) "_DELETED") (pyBasename p)

/-- Embeds `SorterEngine.delete_to_trash`: no-op returning `None` when the file
is missing; otherwise create the `_DELETED` sibling folder and move the
file there, returning the destination. -/
def deleteToTrash (fs : FS) (p : String) : Except (String × FS) (FS × Option String) :=
  if !(fs.existsPath p) then Except.ok (fs, none)
  else
    let trashDir := joinPath (pyDirname p) "_DELETED"
    let fs1 := fs.makedirs trashDir
    let dest := joinPath trashDir (pyBasename p)
    match fs1.move p dest with
    | Except.error m => Except.error (m, fs1)
    | Except.ok fs2 => Except.ok (fs2, some dest)

/-- Embeds `gallery_app.action_undo`: pop the most recent record; `tag` →
`clear_staged_item`, `untag` → `stage_image` with the saved
category/name, `delete` → move the file back from the trash location if
it still exists there, else report "Cannot restore".  The second
component is the warning message, if any. -/
def actionUndo (st : GalleryState) : GalleryState × Option String :=
  match st.undoStack.getLast? with
  | none => (st, some "Nothing to undo")
  | some last =>
    let st1 : GalleryState := { st with undoStack := st.undoStack.dropLast }
    match last with
    | UndoRec.tagRec p _ _ _ => ({ st1 with db := clearStagedItem st1.db p }, none)
    | UndoRec.untagRec p c n _ => ({ st1 with db := stageImage st1.db p c n }, none)
    | UndoRec.deleteRec p =>
      let trash := trashPathOf p
      if st1.fs.existsPath trash then
        match st1.fs.move trash p with
        | Except.error m => (st1, some m)
        | Except.ok fs2 => ({ st1 with fs := fs2 }, none)
      else (st1, some "Cannot restore - file not in trash")

/-! ## Stability of the sort used by the temporal matcher -/

theorem filter_orderedInsert_delta_eq (d : Int) (a : MatchRec) (had : a.delta = d)
    (l : List MatchRec) :
    (List.orderedInsert matchLE a l).filter (fun m => m.delta == d) =
      a :: l.filter (fun m => m.delta == d) := by
  induction l with
  | nil => simp [List.orderedInsert, had]
  | cons y ys ih =>
    by_cases hr : matchLE a y
    · simp [List.orderedInsert, hr, List.filter_cons, had]
    · have hy : ¬(y.delta = d) := by
        unfold matchLE at hr
        omega
      simp [List.orderedInsert, hr, List.filter_cons, hy, ih]

theorem filter_orderedInsert_delta_ne (d : Int) (a : MatchRec) (had : ¬a.delta = d)
    (l : List MatchRec) :
    (List.orderedInsert matchLE a l).filter (fun m => m.delta == d) =
      l.filter (fun m => m.delta == d) := by
  induction l with
  | nil => simp [List.orderedInsert, had]
  | cons y ys ih =>
    by_cases hr : matchLE a y
    · simp [List.orderedInsert, hr, List.filter_cons, had]
    · simp [List.orderedInsert, hr, List.filter_cons, ih]

theorem filter_insertionSort_delta (d : Int) (l : List MatchRec) :
    (List.insertionSort matchLE l).filter (fun m => m.delta == d) =
      l.filter (fun m => m.delta == d) := by
  induction l with
  | nil => simp [List.insertionSort]
  | cons a l ih =>
    show (List.orderedInsert matchLE a (List.insertionSort matchLE l)).filter
        (fun m => m.delta == d) = (a :: l).filter (fun m => m.delta == d)
    by_cases had : a.delta = d
    · rw [filter_orderedInsert_delta_eq d a had, ih, List.filter_cons]
      simp [had]
    · rw [filter_orderedInsert_delta_ne d a had, ih, List.filter_cons]
      simp [had]

theorem mem_matchPool (tTime : Int) (cands : List Cand) (w : Int) (m : MatchRec) :
    m ∈ matchPool tTime cands w ↔
      ∃ c ∈ cands, m = ⟨c.path, |tTime - c.mtime|⟩ ∧ |tTime - c.mtime| ≤ w := by
  induction cands with
  | nil => simp [matchPool]
  | cons c cs ih =>
    by_cases hc : |tTime - c.mtime| ≤ w
    · simp only [matchPool, List.foldr_cons, if_pos hc] at *
      constructor
      · intro hm
        rcases List.mem_cons.mp hm with hm | hm
        · exact ⟨c, List.mem_cons_self c cs, hm, hc⟩
        · rcases ih.mp hm with ⟨c', hc', hmc', hw'⟩
          exact ⟨c', List.mem_cons_of_mem c hc', hmc', hw'⟩
      · rintro ⟨c', hc', rfl, hw'⟩
        rcases List.mem_cons.mp hc' with rfl | hc'
        · exact List.mem_cons_self _ _
        · exact List.mem_cons_of_mem _ (ih.mpr ⟨c', hc', rfl, hw'⟩)
    · simp only [matchPool, List.foldr_cons, if_neg hc] at *
      constructor
      · intro hm
        rcases ih.mp hm with ⟨c', hc', hmc', hw'⟩
        exact ⟨c', List.mem_cons_of_mem c hc', hmc', hw'⟩
      · rintro ⟨c', hc', rfl, hw'⟩
        rcases List.mem_cons.mp hc' with rfl | hc'
        · exact absurd hw' hc
        · exact ih.mpr ⟨c', hc', rfl, hw'⟩

/-- C6: for every time window, target timestamp and candidate list, the
temporal matcher returns exactly the candidates whose absolute time
delta is within the window (`matchPool` is precisely that filtered
list, and the result is a permutation of it), sorted ascending by delta,
with equal-delta ties kept in the order of the input list (the sublist
at each delta value is unchanged by the sort). -/
theorem C6_find_matches_window_sorted_stable (tTime : Int) (cands : List Cand) (w : Int) :
    (findMatches tTime cands w).Perm (matchPool tTime cands w) ∧
    (findMatches tTime cands w).Sorted matchLE ∧
    (∀ d : Int, (findMatches tTime cands w).filter (fun m => m.delta == d) =
      (matchPool tTime cands w).filter (fun m => m.delta == d)) ∧
    (∀ m : MatchRec, m ∈ findMatches tTime cands w ↔
      ∃ c ∈ cands, m = ⟨c.path, |tTime - c.mtime|⟩ ∧ |tTime - c.mtime| ≤ w) := by
  refine ⟨List.perm_insertionSort matchLE _, List.sorted_insertionSort matchLE _,
    fun d => filter_insertionSort_delta d _, fun m => ?_⟩
  rw [← mem_matchPool tTime cands w m]
  exact (List.perm_insertionSort matchLE (matchPool tTime cands w)).mem_iff

/-! ## Claim C10: category deletion clears matching staged entries -/

/-- C10: `delete_category` also deletes every `staging_area` row whose
`target_category` equals the deleted name — the staged files of that
category are silently untagged. -/
theorem C10_delete_category_unstages (db : DB) (name : String) (profile : Option String) :
    (deleteCategory db name profile).staging =
      db.staging.filter (fun e => !(e.cat == name)) ∧
    ∀ e ∈ (deleteCategory db name profile).staging, e.cat ≠ name := by
  have hst : (deleteCategory db name profile).staging =
      db.staging.filter (fun e => !(e.cat == name)) := by
    cases profile <;> rfl
  refine ⟨hst, fun e he => ?_⟩
  rw [hst] at he
  have := List.of_mem_filter he
  simpa using this

/-! ## Claim C8: stage-then-unstage round trip -/

/-- Replacing the staging table by an equal list is the identity. -/
theorem DB_set_staging_self (db : DB) (X : List StagingEntry) (h : X = db.staging) :
    { db with staging := X } = db := by
  cases db
  cases h
  rfl

def c8db : DB := ⟨[⟨"a", "Solo", "Solo_001.jpg", true⟩], [], [], [], []⟩

/-- C8 counterexample: when the path already has a ledger entry,
`stage_image` replaces it and `clear_staged_item` then removes it, so
the round trip does *not* restore the prior state. -/
theorem C8_counterexample :
    clearStagedItem (stageImage c8db "a" "Action" "Action_002.jpg") "a" ≠ c8db := by
  decide

/-- C8 (amended): stage-then-unstage on a path is a no-op round trip
provided the path had no ledger entry beforehand; unstaging a path with
no entry is itself a no-op.  (A pre-existing entry for the path is
destroyed by the round trip, per the counterexample.) -/
theorem C8_stage_unstage_roundtrip (db : DB) (p cat name : String)
    (h : ∀ e ∈ db.staging, e.path ≠ p) :
    clearStagedItem (stageImage db p cat name) p = db ∧ clearStagedItem db p = db := by
  have hfil : db.staging.filter (fun e => !(e.path == p)) = db.staging := by
    rw [List.filter_eq_self]
    intro e he
    simpa using h e he
  have key : ((db.staging.filter (fun e => !(e.path == p))) ++
      [(⟨p, cat, name, true⟩ : StagingEntry)]).filter (fun e => !(e.path == p)) =
      db.staging := by
    rw [hfil, List.filter_append, hfil]
    simp
  exact ⟨DB_set_staging_self db _ key, DB_set_staging_self db _ hfil⟩

/-- Witness for C8 at a concrete input. -/
theorem C8_stage_unstage_roundtrip_witness :
    clearStagedItem (stageImage (⟨[], [], [], [], []⟩ : DB) "a" "Action" "Action_001.jpg") "a" =
        (⟨[], [], [], [], []⟩ : DB) ∧
      clearStagedItem (⟨[], [], [], [], []⟩ : DB) "a" = (⟨[], [], [], [], []⟩ : DB) :=
  C8_stage_unstage_roundtrip ⟨[], [], [], [], []⟩ "a" "Action" "Action_001.jpg" (by simp)

/-! ## Claim C5: collision-safe staging -/

def c5staging : List StagingEntry :=
  [⟨"/s/x1.jpg", "Action", "Action_001.jpg", true⟩,
   ⟨"/s/x2.jpg", "Action", "Action_001_3.jpg", true⟩]

/-- C5 counterexample: `gallery_app.action_tag` resolves the collision
with the single suffix `len(staged_names) + 1` and does not re-check:
with `Action_001.jpg` and `Action_001_3.jpg` staged, tagging at index 1
produces `Action_001_3.jpg` — a name already staged in the category. -/
theorem C5_counterexample :
    actionTagGallery c5staging [] "Action" 1 ".jpg" = "Action_001_3.jpg" ∧
    "Action_001_3.jpg" ∈ stagedNamesOf c5staging "Action" := by
  decide

/-- C5 (amended): in `tab_gallery_sorter.action_tag` the claim holds —
the computed `{category}_{index:03d}{ext}` name is re-checked against
both the staged names of the category and the files at the destination,
an incrementing numeric suffix is applied until the name is free, and
the collision flag is raised exactly when the initial name was taken.
(`gallery_app.action_tag` instead applies the single suffix
`len(staged_names)+1` without re-checking and may still collide, per the
counterexample.) -/
theorem C5_actionTag_resolves (stagedNames destNames : List String) (cat : String)
    (idx : Nat) (ext : String) :
    (actionTagT5 stagedNames destNames cat idx ext).1 ∉ stagedNames ∧
    (actionTagT5 stagedNames destNames cat idx ext).1 ∉ destNames ∧
    ((actionTagT5 stagedNames destNames cat idx ext).2 = true ↔
      (cat ++ "_" ++ fmt3 idx ++ ext) ∈ stagedNames ∨
        (cat ++ "_" ++ fmt3 idx ++ ext) ∈ destNames) := by
  have hfree : ∃ k, 1 ≤ k ∧ k ≤ (stagedNames ++ destNames).length + 1 ∧
      ((cat ++ "_" ++ fmt3 idx) ++ "_" ++ decStr k ++ ext) ∉ stagedNames ++ destNames :=
    exists_free_suffix (stagedNames ++ destNames) (cat ++ "_" ++ fmt3 idx) ext
  rcases hfree with ⟨k, hk1, hk2, hkfree⟩
  have hlen : (stagedNames ++ destNames).length = stagedNames.length + destNames.length :=
    List.length_append _ _
  have hbad : (fun nm => decide (nm ∈ stagedNames ∨ nm ∈ destNames))
      ((cat ++ "_" ++ fmt3 idx) ++ "_" ++ decStr k ++ ext) = false := by
    simp only [decide_eq_false_iff_not]
    intro hor
    exact hkfree (by
      rcases hor with h | h
      · exact List.mem_append_left _ h
      · exact List.mem_append_right _ h)
  have hmain := findFreeBy_not_bad
    (fun nm => decide (nm ∈ stagedNames ∨ nm ∈ destNames))
    (fun j => (cat ++ "_" ++ fmt3 idx) ++ "_" ++ decStr j ++ ext)
    (stagedNames.length + destNames.length + 2)
    ((cat ++ "_" ++ fmt3 idx) ++ ext) 1
    (Or.inr ⟨k - 1, by omega, by
      have hk : 1 + (k - 1) = k := by omega
      rw [hk]
      exact hbad⟩)
  have hres : (actionTagT5 stagedNames destNames cat idx ext).1 =
      findFreeBy (fun nm => decide (nm ∈ stagedNames ∨ nm ∈ destNames))
        (fun j => (cat ++ "_" ++ fmt3 idx) ++ "_" ++ decStr j ++ ext)
        (stagedNames.length + destNames.length + 2)
        ((cat ++ "_" ++ fmt3 idx) ++ ext) 1 := rfl
  have hnot : ¬((actionTagT5 stagedNames destNames cat idx ext).1 ∈ stagedNames ∨
      (actionTagT5 stagedNames destNames cat idx ext).1 ∈ destNames) := by
    rw [hres]
    exact of_decide_eq_false hmain
  push_neg at hnot
  refine ⟨hnot.1, hnot.2, ?_⟩
  show (decide ((cat ++ "_" ++ fmt3 idx ++ ext) ∈ stagedNames ∨
      (cat ++ "_" ++ fmt3 idx ++ ext) ∈ destNames) = true) ↔ _
  simp only [decide_eq_true_eq]

/-! ## Claim C9: popping the undo log -/

/-- C9: popping the undo log reverts the most recent action: a `tag`
record is reverted by unstaging its path; an `untag` record by
re-staging the path with the saved category and name; a `delete` record
by moving the file back from its trash location
(`dirname/_DELETED/basename`) to the original path when it is still
there, and otherwise only reporting that it cannot restore, moving
nothing. -/
theorem C9_undo_reverts (db : DB) (fs : FS) (s : List UndoRec) :
    (∀ p c n i, actionUndo ⟨db, fs, s ++ [UndoRec.tagRec p c n i]⟩ =
      (⟨clearStagedItem db p, fs, s⟩, none)) ∧
    (∀ p c n i, actionUndo ⟨db, fs, s ++ [UndoRec.untagRec p c n i]⟩ =
      (⟨stageImage db p c n, fs, s⟩, none)) ∧
    (∀ p, fs.existsPath (trashPathOf p) = true →
      trashPathOf p ∉ fs.failing →
      actionUndo ⟨db, fs, s ++ [UndoRec.deleteRec p]⟩ =
        (⟨db, (fs.removeFile (trashPathOf p)).addFile p, s⟩, none)) ∧
    (∀ p, fs.existsPath (trashPathOf p) = false →
      actionUndo ⟨db, fs, s ++ [UndoRec.deleteRec p]⟩ =
        (⟨db, fs, s⟩, some "Cannot restore - file not in trash")) := by
  refine ⟨fun p c n i => ?_, fun p c n i => ?_, fun p htrash hfail => ?_, fun p htrash => ?_⟩
  · simp [actionUndo, List.getLast?_concat, List.dropLast_concat]
  · simp [actionUndo, List.getLast?_concat, List.dropLast_concat]
  · simp [actionUndo, List.getLast?_concat, List.dropLast_concat, htrash, FS.move, hfail]
  · simp [actionUndo, List.getLast?_concat, List.dropLast_concat, htrash]

/-- Witness for C9's delete cases at concrete states. -/
theorem C9_undo_reverts_witness :
    FS.existsPath ⟨["d/_DELETED/a.jpg"], [], []⟩ (trashPathOf "d/a.jpg") = true ∧
    trashPathOf "d/a.jpg" ∉ ([] : List String) ∧
    actionUndo ⟨⟨[], [], [], [], []⟩, ⟨["d/_DELETED/a.jpg"], [], []⟩,
        [] ++ [UndoRec.deleteRec "d/a.jpg"]⟩ =
      (⟨⟨[], [], [], [], []⟩,
        (FS.removeFile ⟨["d/_DELETED/a.jpg"], [], []⟩ (trashPathOf "d/a.jpg")).addFile "d/a.jpg",
        []⟩, none) ∧
    actionUndo ⟨⟨[], [], [], [], []⟩, ⟨[], [], []⟩, [] ++ [UndoRec.deleteRec "d/a.jpg"]⟩ =
      (⟨⟨[], [], [], [], []⟩, ⟨[], [], []⟩, []⟩, some "Cannot restore - file not in trash") :=
  ⟨by decide, by decide,
    (C9_undo_reverts ⟨[], [], [], [], []⟩ ⟨["d/_DELETED/a.jpg"], [], []⟩ []).2.2.1
      "d/a.jpg" (by decide) (by decide),
    (C9_undo_reverts ⟨[], [], [], [], []⟩ ⟨[], [], []⟩ []).2.2.2 "d/a.jpg" (by decide)⟩

/-! ## Claim C4: committing an empty ledger with `Keep` -/

def c4db : DB := ⟨[], [], [], [], []⟩

def c4fs : FS := ⟨[], ["src"], []⟩

/-- C4 counterexample: with an empty ledger and cleanup `Keep`, a commit
still runs `os.makedirs(output_root)` when the output root does not
exist — a directory is created, so the filesystem is not unchanged. -/
theorem C4_counterexample :
    (commitGlobal c4db c4fs "out" "Keep" "Copy" (some "src") none).2.2 ≠ c4fs ∧
    "out" ∈ (commitGlobal c4db c4fs "out" "Keep" "Copy" (some "src") none).2.2.dirs ∧
    "out" ∉ c4fs.dirs := by
  decide

theorem commitBatchGo_keep_empty (op outputRoot : String) (fileList : List String)
    (st : List StagingEntry) (log : List ProcLogRec) (fs : FS) :
    commitBatchGo [] op outputRoot "Keep" fileList st log fs =
      Except.ok (st, log, fs) := by
  induction fileList with
  | nil => rfl
  | cons p rest ih =>
    by_cases h : fs.existsPath p
    · simp [commitBatchGo, h, lookupStaged, batchCleanup, ih]
    · simp [commitBatchGo, h, ih]

/-- C4 (amended): committing with an empty staging ledger and cleanup
policy `Keep` leaves the filesystem unchanged **provided the output root
directory already exists**; when it is missing, the only filesystem
change is that the output root directory is created (the
counterexample). -/
theorem C4_empty_ledger_keep_frame (db : DB) (fs : FS) (outputRoot op : String)
    (sourceRoot : Option String) (profile : Option String) (fileList : List String)
    (hstage : db.staging = []) (hout : fs.existsPath outputRoot = true) :
    (commitGlobal db fs outputRoot "Keep" op sourceRoot profile).2.2 = fs ∧
    (commitBatch db fs fileList outputRoot "Keep" op).2.2 = fs := by
  constructor
  · simp [commitGlobal, hstage, hout, commitGlobalGo]
  · simp [commitBatch, hstage, hout, commitBatchGo_keep_empty]

/-- Witness for C4 at a concrete state. -/
theorem C4_empty_ledger_keep_frame_witness :
    (commitGlobal c4db ⟨[], ["out", "src"], []⟩ "out" "Keep" "Copy" (some "src") none).2.2 =
        (⟨[], ["out", "src"], []⟩ : FS) ∧
    (commitBatch c4db ⟨[], ["out", "src"], []⟩ ["src/a.jpg"] "out" "Keep" "Copy").2.2 =
        (⟨[], ["out", "src"], []⟩ : FS) :=
  C4_empty_ledger_keep_frame c4db ⟨[], ["out", "src"], []⟩ "out" "Copy" (some "src") none
    ["src/a.jpg"] rfl (by decide)

/-! ## Claim C2: which ledger entries a commit removes -/

/-- A path is *outside the output area* when it does not start with
`outputRoot ++ "/"`; every commit destination is `joinPath outputRoot _`
and hence never equals such a path. -/
def outsideOutput (outputRoot p : String) : Prop :=
  p.data.take (outputRoot.length + 1) ≠ (outputRoot ++ "/").data

instance (outputRoot p : String) : Decidable (outsideOutput outputRoot p) := by
  unfold outsideOutput
  infer_instance

theorem outsideOutput_ne_joinPath (outputRoot p : String)
    (h : outsideOutput outputRoot p) (nm : String) : p ≠ joinPath outputRoot nm := by
  intro heq
  exact h (by rw [heq]; exact joinPath_take outputRoot nm)

theorem findFreeBy_eq_cur_or_mk (bad : String → Bool) (mk : Nat → String) :
    ∀ (fuel : Nat) (cur : String) (nxt : Nat),
      findFreeBy bad mk fuel cur nxt = cur ∨ ∃ k, findFreeBy bad mk fuel cur nxt = mk k := by
  intro fuel
  induction fuel with
  | zero =>
    intro cur nxt
    by_cases h : bad cur = false <;> simp [findFreeBy, h]
  | succ f ih =>
    intro cur nxt
    by_cases h : bad cur = false
    · simp [findFreeBy, h]
    · have h' : bad cur = true := by
        cases hb : bad cur
        · exact absurd hb h
        · rfl
      have hstep : findFreeBy bad mk (f + 1) cur nxt =
          findFreeBy bad mk f (mk nxt) (nxt + 1) := by simp [findFreeBy, h']
      rw [hstep]
      rcases ih (mk nxt) (nxt + 1) with h2 | ⟨k, h2⟩
      · exact Or.inr ⟨nxt, h2⟩
      · exact Or.inr ⟨k, h2⟩

/-- Every resolved commit destination is directly under the output
root. -/
theorem resolveDst_shape (fs : FS) (outputRoot name : String) :
    ∃ nm, resolveDst fs outputRoot name = joinPath outputRoot nm := by
  unfold resolveDst
  by_cases h : fs.existsPath (joinPath outputRoot name) = true
  · simp only [h, if_true]
    rcases findFreeBy_eq_cur_or_mk (fun d => fs.existsPath d)
        (fun k => joinPath outputRoot ((splitExt name).1 ++ "_" ++ decStr k ++ (splitExt name).2))
        (fs.files.length + fs.dirs.length + 2) (joinPath outputRoot name) 1 with h2 | ⟨k, h2⟩
    · exact ⟨name, h2⟩
    · exact ⟨(splitExt name).1 ++ "_" ++ decStr k ++ (splitExt name).2, h2⟩
  · have h' : fs.existsPath (joinPath outputRoot name) = false := by
      cases hb : fs.existsPath (joinPath outputRoot name)
      · rfl
      · exact absurd hb h
    simp only [h', Bool.false_eq_true, if_false]
    exact ⟨name, rfl⟩

theorem addFile_dirs (fs : FS) (dst : String) : (fs.addFile dst).dirs = fs.dirs := by
  unfold FS.addFile
  split <;> rfl

theorem addFile_failing (fs : FS) (dst : String) : (fs.addFile dst).failing = fs.failing := by
  unfold FS.addFile
  split <;> rfl

theorem addFile_mem_iff (fs : FS) (dst q : String) (h : q ≠ dst) :
    q ∈ (fs.addFile dst).files ↔ q ∈ fs.files := by
  unfold FS.addFile
  split
  · exact Iff.rfl
  · simp [h]

/-- Embeds `lookupStaged` on a table with unique paths finds each of its own
rows. -/
theorem lookupStaged_self (st : List StagingEntry)
    (hnodup : (st.map (fun e => e.path)).Nodup) :
    ∀ e ∈ st, lookupStaged st e.path = some e := by
  induction st with
  | nil => intro e he; cases he
  | cons hd tl ih =>
    intro e he
    rcases List.mem_cons.mp he with rfl | he'
    · simp [lookupStaged, List.find?]
    · have hne : hd.path ≠ e.path := by
        intro hpe
        have : e.path ∈ tl.map (fun e => e.path) := List.mem_map_of_mem _ he'
        rw [List.map_cons, List.nodup_cons] at hnodup
        exact hnodup.1 (hpe ▸ this)
      have := ih (by rw [List.map_cons, List.nodup_cons] at hnodup; exact hnodup.2) e he'
      simp only [lookupStaged, List.find?] at this ⊢
      have hbe : (hd.path == e.path) = false := by
        simp [hne]
      rw [hbe]
      exact this

/-- Whether `commit_batch` deletes a given `staging_area` row: its path
is in the batch, the row is marked, and the source file exists. -/
def commitBatchRemoves (fileList : List String) (fs0 : FS) (e : StagingEntry) : Bool :=
  decide (e.path ∈ fileList) && e.marked && fs0.existsPath e.path

theorem commitBatchGo_copy_keep (data : List StagingEntry) (outputRoot : String)
    (fs0 : FS) (hfail0 : fs0.failing = []) :
    ∀ (fileList : List String) (st : List StagingEntry) (log : List ProcLogRec) (fsAcc : FS),
      fsAcc.dirs = fs0.dirs →
      fsAcc.failing = fs0.failing →
      (∀ q, outsideOutput outputRoot q → (q ∈ fsAcc.files ↔ q ∈ fs0.files)) →
      (∀ p ∈ fileList, outsideOutput outputRoot p) →
      (∀ e ∈ st, lookupStaged data e.path = some e) →
      ∃ log2 fsFin,
        commitBatchGo data "Copy" outputRoot "Keep" fileList st log fsAcc =
          Except.ok (st.filter (fun e => !(commitBatchRemoves fileList fs0 e)), log2, fsFin) := by
  intro fileList
  induction fileList with
  | nil =>
    intro st log fsAcc _ _ _ _ _
    refine ⟨log, fsAcc, ?_⟩
    simp [commitBatchGo, commitBatchRemoves]
  | cons p rest ih =>
    intro st log fsAcc hdirs hfailA hfiles hout hsub
    have hpOut : outsideOutput outputRoot p := hout p (List.mem_cons_self p rest)
    have hex : fsAcc.existsPath p = fs0.existsPath p := by
      by_cases hm : p ∈ fs0.files
      · have hm2 : p ∈ fsAcc.files := (hfiles p hpOut).mpr hm
        simp [FS.existsPath, hm, hm2, hdirs]
      · have hm2 : p ∉ fsAcc.files := fun hc => hm ((hfiles p hpOut).mp hc)
        simp [FS.existsPath, hm, hm2, hdirs]
    have houtRest : ∀ q ∈ rest, outsideOutput outputRoot q :=
      fun q hq => hout q (List.mem_cons_of_mem p hq)
    by_cases hexists : fs0.existsPath p = true
    · have hA : fsAcc.existsPath p = true := hex.trans hexists
      cases hlook : lookupStaged data p with
      | none =>
        have hstep : commitBatchGo data "Copy" outputRoot "Keep" (p :: rest) st log fsAcc =
            commitBatchGo data "Copy" outputRoot "Keep" rest st log fsAcc := by
          simp [commitBatchGo, hA, hlook, batchCleanup]
        rw [hstep]
        rcases ih st log fsAcc hdirs hfailA hfiles houtRest hsub with ⟨log2, fsFin, hgo⟩
        refine ⟨log2, fsFin, ?_⟩
        rw [hgo]
        have hfilter : st.filter (fun e => !(commitBatchRemoves rest fs0 e)) =
            st.filter (fun e => !(commitBatchRemoves (p :: rest) fs0 e)) := by
          apply List.filter_congr
          intro e he
          have hne : e.path ≠ p := by
            intro hpe
            have := hsub e he
            rw [hpe, hlook] at this
            cases this
          simp [commitBatchRemoves, List.mem_cons, hne]
        rw [hfilter]
      | some info =>
        by_cases hm : info.marked = true
        · have hfailAcc : fsAcc.failing = [] := hfailA.trans hfail0
          have hcopy : fsAcc.copy2 p (resolveDst fsAcc outputRoot info.name) =
              Except.ok (fsAcc.addFile (resolveDst fsAcc outputRoot info.name)) := by
            simp [FS.copy2, hfailAcc]
          have hstep : commitBatchGo data "Copy" outputRoot "Keep" (p :: rest) st log fsAcc =
              commitBatchGo data "Copy" outputRoot "Keep" rest
                (st.filter (fun e => !(e.path == p)))
                (insertLog log ⟨p, info.cat, "Copy"⟩)
                (fsAcc.addFile (resolveDst fsAcc outputRoot info.name)) := by
            simp [commitBatchGo, hA, hlook, hm, hcopy, fixPermissions]
          rw [hstep]
          rcases resolveDst_shape fsAcc outputRoot info.name with ⟨nm, hnm⟩
          have hdirs' : (fsAcc.addFile (resolveDst fsAcc outputRoot info.name)).dirs = fs0.dirs := by
            rw [addFile_dirs, hdirs]
          have hfail' : (fsAcc.addFile (resolveDst fsAcc outputRoot info.name)).failing =
              fs0.failing := by
            rw [addFile_failing, hfailA]
          have hfiles' : ∀ q, outsideOutput outputRoot q →
              (q ∈ (fsAcc.addFile (resolveDst fsAcc outputRoot info.name)).files ↔
                q ∈ fs0.files) := by
            intro q hq
            have hqne : q ≠ resolveDst fsAcc outputRoot info.name := by
              rw [hnm]
              exact outsideOutput_ne_joinPath outputRoot q hq nm
            rw [addFile_mem_iff fsAcc _ q hqne]
            exact hfiles q hq
          have hsub' : ∀ e ∈ st.filter (fun e => !(e.path == p)),
              lookupStaged data e.path = some e :=
            fun e he => hsub e (List.mem_of_mem_filter he)
          rcases ih (st.filter (fun e => !(e.path == p)))
              (insertLog log ⟨p, info.cat, "Copy"⟩)
              (fsAcc.addFile (resolveDst fsAcc outputRoot info.name))
              hdirs' hfail' hfiles' houtRest hsub' with ⟨log2, fsFin, hgo⟩
          refine ⟨log2, fsFin, ?_⟩
          rw [hgo]
          rw [List.filter_filter]
          have hfilter : st.filter
              (fun e => !(commitBatchRemoves rest fs0 e) && !(e.path == p)) =
              st.filter (fun e => !(commitBatchRemoves (p :: rest) fs0 e)) := by
            apply List.filter_congr
            intro e he
            by_cases hep : e.path = p
            · have hinfo : info = e := by
                have := hsub e he
                rw [hep, hlook] at this
                exact Option.some.inj this
              have hmark : e.marked = true := by rw [← hinfo]; exact hm
              simp [commitBatchRemoves, hep, List.mem_cons, hmark, hexists]
            · simp [commitBatchRemoves, List.mem_cons, hep]
          rw [hfilter]
        · have hm' : info.marked = false := by
            cases hb : info.marked
            · rfl
            · exact absurd hb hm
          have hstep : commitBatchGo data "Copy" outputRoot "Keep" (p :: rest) st log fsAcc =
              commitBatchGo data "Copy" outputRoot "Keep" rest st log fsAcc := by
            simp [commitBatchGo, hA, hlook, hm', batchCleanup]
          rw [hstep]
          rcases ih st log fsAcc hdirs hfailA hfiles houtRest hsub with ⟨log2, fsFin, hgo⟩
          refine ⟨log2, fsFin, ?_⟩
          rw [hgo]
          have hfilter : st.filter (fun e => !(commitBatchRemoves rest fs0 e)) =
              st.filter (fun e => !(commitBatchRemoves (p :: rest) fs0 e)) := by
            apply List.filter_congr
            intro e he
            by_cases hep : e.path = p
            · have hinfo : info = e := by
                have := hsub e he
                rw [hep, hlook] at this
                exact Option.some.inj this
              have hmark : e.marked = false := by rw [← hinfo]; exact hm'
              simp [commitBatchRemoves, hep, List.mem_cons, hmark]
            · simp [commitBatchRemoves, List.mem_cons, hep]
          rw [hfilter]
    · have hex0 : fs0.existsPath p = false := by
        cases hb : fs0.existsPath p
        · rfl
        · exact absurd hb hexists
      have hA : fsAcc.existsPath p = false := hex.trans hex0
      have hstep : commitBatchGo data "Copy" outputRoot "Keep" (p :: rest) st log fsAcc =
          commitBatchGo data "Copy" outputRoot "Keep" rest st log fsAcc := by
        simp [commitBatchGo, hA]
      rw [hstep]
      rcases ih st log fsAcc hdirs hfailA hfiles houtRest hsub with ⟨log2, fsFin, hgo⟩
      refine ⟨log2, fsFin, ?_⟩
      rw [hgo]
      have hfilter : st.filter (fun e => !(commitBatchRemoves rest fs0 e)) =
          st.filter (fun e => !(commitBatchRemoves (p :: rest) fs0 e)) := by
        apply List.filter_congr
        intro e he
        by_cases hep : e.path = p
        · simp [commitBatchRemoves, hep, List.mem_cons, hex0]
        · simp [commitBatchRemoves, List.mem_cons, hep]
      rw [hfilter]

def c2db : DB := ⟨[⟨"src/gone.jpg", "Action", "Action_001.jpg", true⟩], [], [], [], []⟩

def c2fs : FS := ⟨[], ["out", "src"], []⟩

/-- C2 counterexample: the source file of the only staged entry is
missing, so the commit skips it (no file operation happens — the
filesystem is unchanged), yet `commit_global` ends with
`DELETE FROM staging_area` and the skipped entry is gone. -/
theorem C2_counterexample :
    (commitGlobal c2db c2fs "out" "Keep" "Copy" (some "src") none).1 = none ∧
    (commitGlobal c2db c2fs "out" "Keep" "Copy" (some "src") none).2.2 = c2fs ∧
    (commitGlobal c2db c2fs "out" "Keep" "Copy" (some "src") none).2.1.staging = [] := by
  decide

/-- C2 (amended): the two commits differ.  `commit_batch` removes
exactly the entries it processed — path in the batch, marked, source
file present — so entries whose source file was missing remain in the
ledger.  `commit_global`, however, clears the **entire** staging ledger
on success, including entries it skipped because their source file was
missing (the counterexample). -/
theorem C2_commit_removal :
    (∀ (db : DB) (fs : FS) (outputRoot cleanupMode op : String)
        (sourceRoot profile : Option String),
      (commitGlobal db fs outputRoot cleanupMode op sourceRoot profile).1 = none →
      (commitGlobal db fs outputRoot cleanupMode op sourceRoot profile).2.1.staging = []) ∧
    (∀ (db : DB) (fs : FS) (fileList : List String) (outputRoot : String),
      fs.failing = [] →
      fs.existsPath outputRoot = true →
      (∀ p ∈ fileList, outsideOutput outputRoot p) →
      (db.staging.map (fun e => e.path)).Nodup →
      (commitBatch db fs fileList outputRoot "Keep" "Copy").1 = none ∧
      (commitBatch db fs fileList outputRoot "Keep" "Copy").2.1.staging =
        db.staging.filter (fun e => !(commitBatchRemoves fileList fs e))) := by
  constructor
  · intro db fs outputRoot cleanupMode op sourceRoot profile
    simp only [commitGlobal]
    split
    · intro h
      simp at h
    · split
      · intro h
        simp at h
      · intro _
        rfl
  · intro db fs fileList outputRoot hfail hout hsafe hnodup
    have hsub := lookupStaged_self db.staging hnodup
    rcases commitBatchGo_copy_keep db.staging outputRoot fs hfail fileList db.staging
        db.processedLog fs rfl rfl (fun _ _ => Iff.rfl) hsafe hsub with ⟨log2, fsFin, hgo⟩
    constructor
    · simp [commitBatch, hout, hgo]
    · simp [commitBatch, hout, hgo]

def c2wdb : DB :=
  ⟨[⟨"src/a.jpg", "Action", "Action_001.jpg", true⟩,
    ⟨"src/gone.jpg", "Solo", "Solo_001.jpg", true⟩], [], [], [], []⟩

def c2wfs : FS := ⟨["src/a.jpg"], ["out", "src"], []⟩

/-- Witness for C2 at a concrete state: one entry with its source
present, one with it missing. -/
theorem C2_commit_removal_witness :
    ((commitGlobal c2wdb c2wfs "out" "Keep" "Copy" (some "src") none).1 = none →
      (commitGlobal c2wdb c2wfs "out" "Keep" "Copy" (some "src") none).2.1.staging = []) ∧
    ((commitBatch c2wdb c2wfs ["src/a.jpg", "src/gone.jpg"] "out" "Keep" "Copy").1 = none ∧
      (commitBatch c2wdb c2wfs ["src/a.jpg", "src/gone.jpg"] "out" "Keep" "Copy").2.1.staging =
        c2wdb.staging.filter
          (fun e => !(commitBatchRemoves ["src/a.jpg", "src/gone.jpg"] c2wfs e))) :=
  ⟨C2_commit_removal.1 c2wdb c2wfs "out" "Keep" "Copy" (some "src") none,
   C2_commit_removal.2 c2wdb c2wfs ["src/a.jpg", "src/gone.jpg"] "out" rfl (by decide)
     (by decide) (by decide)⟩

/-! ## Claim C1: where a commit places the files -/

theorem mem_addFile_self (fs : FS) (dst : String) : dst ∈ (fs.addFile dst).files := by
  unfold FS.addFile
  split
  · next h => simpa using h
  · exact List.mem_cons_self _ _

theorem mem_addFile_of_mem (fs : FS) (dst q : String) (h : q ∈ fs.files) :
    q ∈ (fs.addFile dst).files := by
  unfold FS.addFile
  split
  · exact h
  · exact List.mem_cons_of_mem _ h

theorem existsPath_addFile_ne (fs : FS) (dst q : String) (h : q ≠ dst) :
    (fs.addFile dst).existsPath q = fs.existsPath q := by
  have hm := addFile_mem_iff fs dst q h
  by_cases hq : q ∈ fs.files
  · simp [FS.existsPath, hq, hm.mpr hq, addFile_dirs]
  · have hq2 : q ∉ (fs.addFile dst).files := fun hc => hq (hm.mp hc)
    simp [FS.existsPath, hq, hq2, addFile_dirs]

theorem existsPath_true_of_mem (fs : FS) (p : String) (h : p ∈ fs.files) :
    fs.existsPath p = true := by
  simp [FS.existsPath, h]

/-- With a fresh destination the collision loop does not run: the
destination is the plain `output_root/name` join. -/
theorem resolveDst_of_fresh (fs : FS) (outputRoot name : String)
    (h : fs.existsPath (joinPath outputRoot name) = false) :
    resolveDst fs outputRoot name = joinPath outputRoot name := by
  unfold resolveDst
  simp [h]

theorem lookupStaged_mem (data : List StagingEntry) (p : String) (info : StagingEntry)
    (h : lookupStaged data p = some info) : info ∈ data ∧ info.path = p := by
  unfold lookupStaged at h
  refine ⟨List.mem_of_find?_eq_some h, ?_⟩
  have := List.find?_some h
  simpa using this

theorem commitGlobalGo_copy_flat (outputRoot : String) :
    ∀ (entries : List StagingEntry) (log : List ProcLogRec) (fsAcc : FS),
      fsAcc.failing = [] →
      (∀ e ∈ entries, e.path ∈ fsAcc.files) →
      (∀ e ∈ entries, fsAcc.existsPath (joinPath outputRoot e.name) = false) →
      ((entries.map (fun e => joinPath outputRoot e.name)).Nodup) →
      ∃ log2 fsFin,
        commitGlobalGo "Copy" outputRoot entries log fsAcc = Except.ok (log2, fsFin) ∧
        (∀ e ∈ entries, joinPath outputRoot e.name ∈ fsFin.files) ∧
        (∀ q ∈ fsAcc.files, q ∈ fsFin.files) := by
  intro entries
  induction entries with
  | nil =>
    intro log fsAcc _ _ _ _
    exact ⟨log, fsAcc, rfl, fun e he => absurd he (List.not_mem_nil e), fun q hq => hq⟩
  | cons e rest ih =>
    intro log fsAcc hfa hpres hfresh hnodup
    have hePres : e.path ∈ fsAcc.files := hpres e (List.mem_cons_self e rest)
    have heEx : fsAcc.existsPath e.path = true := existsPath_true_of_mem _ _ hePres
    have heFresh : fsAcc.existsPath (joinPath outputRoot e.name) = false :=
      hfresh e (List.mem_cons_self e rest)
    have hdst : resolveDst fsAcc outputRoot e.name = joinPath outputRoot e.name :=
      resolveDst_of_fresh _ _ _ heFresh
    have hcopy : fsAcc.copy2 e.path (resolveDst fsAcc outputRoot e.name) =
        Except.ok (fsAcc.addFile (joinPath outputRoot e.name)) := by
      rw [hdst]
      simp [FS.copy2, hfa]
    have hstep : commitGlobalGo "Copy" outputRoot (e :: rest) log fsAcc =
        commitGlobalGo "Copy" outputRoot rest (insertLog log ⟨e.path, e.cat, "Copy"⟩)
          (fsAcc.addFile (joinPath outputRoot e.name)) := by
      simp [commitGlobalGo, heEx, hcopy, fixPermissions]
    rw [List.map_cons, List.nodup_cons] at hnodup
    have hfa' : (fsAcc.addFile (joinPath outputRoot e.name)).failing = [] := by
      rw [addFile_failing, hfa]
    have hpres' : ∀ e' ∈ rest, e'.path ∈ (fsAcc.addFile (joinPath outputRoot e.name)).files :=
      fun e' he' => mem_addFile_of_mem _ _ _ (hpres e' (List.mem_cons_of_mem e he'))
    have hfresh' : ∀ e' ∈ rest,
        (fsAcc.addFile (joinPath outputRoot e.name)).existsPath
          (joinPath outputRoot e'.name) = false := by
      intro e' he'
      have hne : joinPath outputRoot e'.name ≠ joinPath outputRoot e.name := by
        intro hcon
        exact hnodup.1 (hcon ▸ List.mem_map_of_mem _ he')
      rw [existsPath_addFile_ne _ _ _ hne]
      exact hfresh e' (List.mem_cons_of_mem e he')
    rcases ih (insertLog log ⟨e.path, e.cat, "Copy"⟩)
        (fsAcc.addFile (joinPath outputRoot e.name)) hfa' hpres' hfresh' hnodup.2 with
      ⟨log2, fsFin, hgo, hdests, hmono⟩
    refine ⟨log2, fsFin, by rw [hstep, hgo], ?_, ?_⟩
    · intro e' he'
      rcases List.mem_cons.mp he' with rfl | he'
      · exact hmono _ (mem_addFile_self fsAcc (joinPath outputRoot e'.name))
      · exact hdests e' he'
    · intro q hq
      exact hmono q (mem_addFile_of_mem _ _ _ hq)

theorem commitBatchGo_copy_flat (data : List StagingEntry) (outputRoot : String)
    (hdestN : (data.map (fun e => joinPath outputRoot e.name)).Nodup) :
    ∀ (fileList : List String) (st : List StagingEntry) (log : List ProcLogRec) (fsAcc : FS),
      fsAcc.failing = [] →
      (∀ p ∈ fileList, p ∈ fsAcc.files) →
      fileList.Nodup →
      (∀ e ∈ data, e.path ∈ fileList →
        fsAcc.existsPath (joinPath outputRoot e.name) = false) →
      ∃ st2 log2 fsFin,
        commitBatchGo data "Copy" outputRoot "Keep" fileList st log fsAcc =
          Except.ok (st2, log2, fsFin) ∧
        (∀ p ∈ fileList, ∀ info, lookupStaged data p = some info → info.marked = true →
          joinPath outputRoot info.name ∈ fsFin.files) ∧
        (∀ q ∈ fsAcc.files, q ∈ fsFin.files) := by
  intro fileList
  induction fileList with
  | nil =>
    intro st log fsAcc _ _ _ _
    exact ⟨st, log, fsAcc, rfl, fun p hp => absurd hp (List.not_mem_nil p), fun q hq => hq⟩
  | cons p rest ih =>
    intro st log fsAcc hfa hpres hnodupF hfresh
    have hpPres : p ∈ fsAcc.files := hpres p (List.mem_cons_self p rest)
    have hpEx : fsAcc.existsPath p = true := existsPath_true_of_mem _ _ hpPres
    rw [List.nodup_cons] at hnodupF
    cases hlook : lookupStaged data p with
    | none =>
      have hstep : commitBatchGo data "Copy" outputRoot "Keep" (p :: rest) st log fsAcc =
          commitBatchGo data "Copy" outputRoot "Keep" rest st log fsAcc := by
        simp [commitBatchGo, hpEx, hlook, batchCleanup]
      rcases ih st log fsAcc hfa (fun q hq => hpres q (List.mem_cons_of_mem p hq)) hnodupF.2
          (fun e he hep => hfresh e he (List.mem_cons_of_mem p hep)) with
        ⟨st2, log2, fsFin, hgo, hdests, hmono⟩
      refine ⟨st2, log2, fsFin, by rw [hstep, hgo], ?_, hmono⟩
      intro p' hp' info hinfo hmark
      rcases List.mem_cons.mp hp' with rfl | hp'
      · rw [hlook] at hinfo
        cases hinfo
      · exact hdests p' hp' info hinfo hmark
    | some info =>
      have hinfoMem := lookupStaged_mem data p info hlook
      by_cases hm : info.marked = true
      · have hFresh : fsAcc.existsPath (joinPath outputRoot info.name) = false :=
          hfresh info hinfoMem.1 (hinfoMem.2 ▸ List.mem_cons_self p rest)
        have hdst : resolveDst fsAcc outputRoot info.name = joinPath outputRoot info.name :=
          resolveDst_of_fresh _ _ _ hFresh
        have hcopy : fsAcc.copy2 p (resolveDst fsAcc outputRoot info.name) =
            Except.ok (fsAcc.addFile (joinPath outputRoot info.name)) := by
          rw [hdst]
          simp [FS.copy2, hfa]
        have hstep : commitBatchGo data "Copy" outputRoot "Keep" (p :: rest) st log fsAcc =
            commitBatchGo data "Copy" outputRoot "Keep" rest
              (st.filter (fun e => !(e.path == p)))
              (insertLog log ⟨p, info.cat, "Copy"⟩)
              (fsAcc.addFile (joinPath outputRoot info.name)) := by
          simp [commitBatchGo, hpEx, hlook, hm, hcopy, fixPermissions]
        have hfa' : (fsAcc.addFile (joinPath outputRoot info.name)).failing = [] := by
          rw [addFile_failing, hfa]
        have hpres' : ∀ q ∈ rest, q ∈ (fsAcc.addFile (joinPath outputRoot info.name)).files :=
          fun q hq => mem_addFile_of_mem _ _ _ (hpres q (List.mem_cons_of_mem p hq))
        have hfresh' : ∀ e ∈ data, e.path ∈ rest →
            (fsAcc.addFile (joinPath outputRoot info.name)).existsPath
              (joinPath outputRoot e.name) = false := by
          intro e he hep
          have heni : e ≠ info := by
            intro hcon
            rw [hcon, hinfoMem.2] at hep
            exact hnodupF.1 hep
          have hne : joinPath outputRoot e.name ≠ joinPath outputRoot info.name := by
            intro hcon
            exact heni (List.inj_on_of_nodup_map hdestN he hinfoMem.1 hcon)
          rw [existsPath_addFile_ne _ _ _ hne]
          exact hfresh e he (List.mem_cons_of_mem p hep)
        rcases ih (st.filter (fun e => !(e.path == p)))
            (insertLog log ⟨p, info.cat, "Copy"⟩)
            (fsAcc.addFile (joinPath outputRoot info.name))
            hfa' hpres' hnodupF.2 hfresh' with ⟨st2, log2, fsFin, hgo, hdests, hmono⟩
        refine ⟨st2, log2, fsFin, by rw [hstep, hgo], ?_, ?_⟩
        · intro p' hp' info' hinfo' hmark'
          rcases List.mem_cons.mp hp' with rfl | hp'
          · rw [hlook] at hinfo'
            have : info = info' := Option.some.inj hinfo'
            rw [← this]
            exact hmono _ (mem_addFile_self fsAcc (joinPath outputRoot info.name))
          · exact hdests p' hp' info' hinfo' hmark'
        · intro q hq
          exact hmono q (mem_addFile_of_mem _ _ _ hq)
      · have hm' : info.marked = false := by
          cases hb : info.marked
          · rfl
          · exact absurd hb hm
        have hstep : commitBatchGo data "Copy" outputRoot "Keep" (p :: rest) st log fsAcc =
            commitBatchGo data "Copy" outputRoot "Keep" rest st log fsAcc := by
          simp [commitBatchGo, hpEx, hlook, hm', batchCleanup]
        rcases ih st log fsAcc hfa (fun q hq => hpres q (List.mem_cons_of_mem p hq)) hnodupF.2
            (fun e he hep => hfresh e he (List.mem_cons_of_mem p hep)) with
          ⟨st2, log2, fsFin, hgo, hdests, hmono⟩
        refine ⟨st2, log2, fsFin, by rw [hstep, hgo], ?_, hmono⟩
        intro p' hp' info' hinfo' hmark'
        rcases List.mem_cons.mp hp' with rfl | hp'
        · rw [hlook] at hinfo'
          have : info = info' := Option.some.inj hinfo'
          rw [← this] at hmark'
          exact absurd hmark' (by rw [hm']; exact Bool.false_ne_true)
        · exact hdests p' hp' info' hinfo' hmark'

def c1db : DB := ⟨[⟨"src/a.jpg", "Action", "Action_001.jpg", true⟩], [], [], [], []⟩

def c1fs : FS := ⟨["src/a.jpg"], ["out", "src"], []⟩

/-- C1 counterexample: committing a staged entry of category `Action`
places the file at `out/Action_001.jpg` — directly under the output
root — and **not** at `out/Action/Action_001.jpg`, for both
`commit_global` and `commit_batch`. -/
theorem C1_counterexample :
    joinPath "out" "Action_001.jpg" ∈
      (commitGlobal c1db c1fs "out" "Keep" "Copy" (some "src") none).2.2.files ∧
    joinPath (joinPath "out" "Action") "Action_001.jpg" ∉
      (commitGlobal c1db c1fs "out" "Keep" "Copy" (some "src") none).2.2.files ∧
    joinPath "out" "Action_001.jpg" ∈
      (commitBatch c1db c1fs ["src/a.jpg"] "out" "Keep" "Copy").2.2.files ∧
    joinPath (joinPath "out" "Action") "Action_001.jpg" ∉
      (commitBatch c1db c1fs ["src/a.jpg"] "out" "Keep" "Copy").2.2.files := by
  decide

/-- C1 (amended): both commits compute the destination as
`os.path.join(output_root, name)` — the flattened layout, directly under
the output root and not inside a `output_root/<category>` subdirectory.
With present sources and fresh, pairwise-distinct destinations, every
processed entry's file ends up at `joinPath output_root name`. -/
theorem C1_commit_destination_flat :
    (∀ (db : DB) (fs : FS) (outputRoot : String) (sourceRoot profile : Option String),
      fs.failing = [] →
      fs.existsPath outputRoot = true →
      (∀ e ∈ db.staging, e.path ∈ fs.files) →
      (∀ e ∈ db.staging, fs.existsPath (joinPath outputRoot e.name) = false) →
      ((db.staging.map (fun e => joinPath outputRoot e.name)).Nodup) →
      (commitGlobal db fs outputRoot "Keep" "Copy" sourceRoot profile).1 = none ∧
      ∀ e ∈ db.staging, joinPath outputRoot e.name ∈
        (commitGlobal db fs outputRoot "Keep" "Copy" sourceRoot profile).2.2.files) ∧
    (∀ (db : DB) (fs : FS) (fileList : List String) (outputRoot : String),
      fs.failing = [] →
      fs.existsPath outputRoot = true →
      (∀ p ∈ fileList, p ∈ fs.files) →
      fileList.Nodup →
      ((db.staging.map (fun e => joinPath outputRoot e.name)).Nodup) →
      (∀ e ∈ db.staging, e.path ∈ fileList →
        fs.existsPath (joinPath outputRoot e.name) = false) →
      (commitBatch db fs fileList outputRoot "Keep" "Copy").1 = none ∧
      ∀ p ∈ fileList, ∀ info, lookupStaged db.staging p = some info → info.marked = true →
        joinPath outputRoot info.name ∈
          (commitBatch db fs fileList outputRoot "Keep" "Copy").2.2.files) := by
  constructor
  · intro db fs outputRoot sourceRoot profile hfail hout hsrc hfresh hnodup
    rcases commitGlobalGo_copy_flat outputRoot db.staging
        (match sourceRoot with
         | some sr => saveFolderTags db sr profile
         | none => db).processedLog fs hfail hsrc hfresh hnodup with
      ⟨log2, fsFin, hgo, hdests, _⟩
    constructor
    · simp [commitGlobal, hout, hgo]
    · intro e he
      simp only [commitGlobal, hout, if_true, hgo]
      exact hdests e he
  · intro db fs fileList outputRoot hfail hout hpres hnodupF hnodupD hfresh
    rcases commitBatchGo_copy_flat db.staging outputRoot hnodupD fileList db.staging
        db.processedLog fs hfail hpres hnodupF hfresh with
      ⟨st2, log2, fsFin, hgo, hdests, _⟩
    constructor
    · simp [commitBatch, hout, hgo]
    · intro p hp info hinfo hmark
      simp only [commitBatch, hout, if_true, hgo]
      exact hdests p hp info hinfo hmark

/-- Witness for C1 at a concrete state. -/
theorem C1_commit_destination_flat_witness :
    (((commitGlobal c1db c1fs "out" "Keep" "Copy" (some "src") none).1 = none ∧
      ∀ e ∈ c1db.staging, joinPath "out" e.name ∈
        (commitGlobal c1db c1fs "out" "Keep" "Copy" (some "src") none).2.2.files) ∧
    ((commitBatch c1db c1fs ["src/a.jpg"] "out" "Keep" "Copy").1 = none ∧
      ∀ p ∈ ["src/a.jpg"], ∀ info, lookupStaged c1db.staging p = some info →
        info.marked = true →
        joinPath "out" info.name ∈
          (commitBatch c1db c1fs ["src/a.jpg"] "out" "Keep" "Copy").2.2.files)) :=
  ⟨C1_commit_destination_flat.1 c1db c1fs "out" (some "src") none rfl (by decide)
      (by decide) (by decide) (by decide),
   C1_commit_destination_flat.2 c1db c1fs ["src/a.jpg"] "out" rfl (by decide) (by decide)
      (by decide) (by decide) (by decide)⟩

/-! ## Claim C3: per-file failure boundaries in a commit batch -/

def c3db : DB :=
  ⟨[⟨"src/a.jpg", "Action", "Action_001.jpg", true⟩,
    ⟨"src/b.jpg", "Action", "Action_002.jpg", true⟩], [], [], [], []⟩

def c3fs : FS := ⟨["src/a.jpg", "src/b.jpg"], ["out", "src"], ["src/a.jpg"]⟩

/-- C3 counterexample: a copy failure on the first file of a two-file
batch is not caught per item — the exception aborts the batch, the
second file is never committed (its destination does not exist
afterwards), and the store rolls back. -/
theorem C3_counterexample :
    (commitBatch c3db c3fs ["src/a.jpg", "src/b.jpg"] "out" "Keep" "Copy").1 =
      some "copy failed: src/a.jpg" ∧
    joinPath "out" "Action_002.jpg" ∉
      (commitBatch c3db c3fs ["src/a.jpg", "src/b.jpg"] "out" "Keep" "Copy").2.2.files ∧
    (commitBatch c3db c3fs ["src/a.jpg", "src/b.jpg"] "out" "Keep" "Copy").2.1 = c3db := by
  decide

/-- C3 (amended): missing source files are indeed skipped — the batch
continues exactly as if the path were absent from it.  But a filesystem
failure during move/copy is **not** isolated per item: the exception
propagates out of the loop, none of the remaining files is processed,
and the batch's store mutations roll back. -/
theorem C3_batch_failure_behaviour :
    (∀ (db : DB) (fs : FS) (p : String) (rest : List String)
        (outputRoot cleanupMode op : String),
      fs.existsPath outputRoot = true →
      fs.existsPath p = false →
      commitBatch db fs (p :: rest) outputRoot cleanupMode op =
        commitBatch db fs rest outputRoot cleanupMode op) ∧
    (∀ (db : DB) (fs : FS) (bad : String) (rest : List String) (outputRoot op : String)
        (info : StagingEntry),
      fs.existsPath outputRoot = true →
      bad ∈ fs.failing →
      fs.existsPath bad = true →
      lookupStaged db.staging bad = some info →
      info.marked = true →
      ∃ m, commitBatch db fs (bad :: rest) outputRoot "Keep" op = (some m, db, fs)) := by
  constructor
  · intro db fs p rest outputRoot cleanupMode op hout hp
    simp [commitBatch, hout, commitBatchGo, hp]
  · intro db fs bad rest outputRoot op info hout hbad hex hlook hmark
    have hcont : fs.failing.contains bad = true := by simp [hbad]
    by_cases hop : (op == "Copy") = true
    · refine ⟨"copy failed: " ++ bad, ?_⟩
      simp [commitBatch, hout, commitBatchGo, hex, hlook, hmark, hop, FS.copy2, hbad]
    · have hop' : (op == "Copy") = false := by
        cases hb : (op == "Copy")
        · rfl
        · exact absurd hb hop
      refine ⟨"move failed: " ++ bad, ?_⟩
      simp [commitBatch, hout, commitBatchGo, hex, hlook, hmark, hop', FS.move, hbad]

/-- Witness for C3 at concrete states. -/
theorem C3_batch_failure_behaviour_witness :
    (commitBatch c3db ⟨[], ["out"], []⟩ ["src/gone.jpg"] "out" "Keep" "Copy" =
      commitBatch c3db ⟨[], ["out"], []⟩ [] "out" "Keep" "Copy") ∧
    (∃ m, commitBatch c3db c3fs ["src/a.jpg", "src/b.jpg"] "out" "Keep" "Copy" =
      (some m, c3db, c3fs)) :=
  ⟨C3_batch_failure_behaviour.1 c3db ⟨[], ["out"], []⟩ "src/gone.jpg" [] "out" "Keep" "Copy"
      (by decide) (by decide),
   C3_batch_failure_behaviour.2 c3db c3fs "src/a.jpg" ["src/b.jpg"] "out" "Copy"
      ⟨"src/a.jpg", "Action", "Action_001.jpg", true⟩ (by decide) (by decide) (by decide)
      (by decide) (by decide)⟩

/-! ## Claim C7: folder-tag snapshot round trip -/

/-- The ledger entry the save/restore round trip recreates for `e`. -/
def restoredEntryOf (e : StagingEntry) : StagingEntry :=
  ⟨e.path, e.cat,
    e.cat ++ "_" ++ fmt3 (extractTagIndex e.name) ++ (splitExt (pyBasename e.path)).2, true⟩

/-- Spec-side definition, following the claim's words: the numeric index
of the **trailing** `_NNN` segment of a computed name (the maximal digit
run at the end of the name's root). -/
def trailingIndexSpec (name : String) : Nat :=
  decVal (((splitExt name).1.data.reverse.takeWhile (fun c => c.isDigit)).reverse)

def c7db : DB := ⟨[⟨"src/a.jpg", "Action", "Action_010_2.jpg", true⟩], [], [], [], []⟩

/-- C7 counterexample: for the computed name `Action_010_2.jpg` (an
index-10 tag that needed collision suffix `2`), `save_folder_tags`
stores index `10` — `re.search(r'_(\d+)')` takes the **first** `_NNN`
segment — while the trailing segment the claim describes is `2`. -/
theorem C7_counterexample :
    extractTagIndex "Action_010_2.jpg" = 10 ∧
    trailingIndexSpec "Action_010_2.jpg" = 2 ∧
    (saveFolderTags c7db "src" (some "P")).folderTags =
      [⟨"P", "src", "a.jpg", "Action", 10⟩] ∧
    ¬extractTagIndex "Action_010_2.jpg" = trailingIndexSpec "Action_010_2.jpg" := by
  decide

theorem save_foldl_eq (pr folder : String) :
    ∀ (entries : List StagingEntry) (acc : List FolderTagRec),
      (∀ e ∈ entries, ∀ q ∈ acc, q.filename ≠ pyBasename e.path) →
      List.Pairwise (fun a b : StagingEntry => pyBasename a.path ≠ pyBasename b.path) entries →
      (∀ e ∈ entries, pyStartsWith e.path folder = true) →
      List.foldl (fun acc e =>
        if pyStartsWith e.path folder then insertFolderTag acc (folderTagOf pr folder e)
        else acc) acc entries = acc ++ entries.map (folderTagOf pr folder) := by
  intro entries
  induction entries with
  | nil =>
    intro acc _ _ _
    simp
  | cons e rest ih =>
    intro acc hdisj hpw hstart
    rw [List.pairwise_cons] at hpw
    have hs : pyStartsWith e.path folder = true := hstart e (List.mem_cons_self e rest)
    have hins : insertFolderTag acc (folderTagOf pr folder e) =
        acc ++ [folderTagOf pr folder e] := by
      unfold insertFolderTag
      congr 1
      rw [List.filter_eq_self]
      intro q hq
      have hne := hdisj e (List.mem_cons_self e rest) q hq
      simp [folderTagOf, hne]
    simp only [List.foldl_cons, hs, if_true, hins]
    rw [ih (acc ++ [folderTagOf pr folder e]) ?_ hpw.2
      (fun e' he' => hstart e' (List.mem_cons_of_mem _ he'))]
    · simp
    · intro e' he' q hq
      rcases List.mem_append.mp hq with hq | hq
      · exact hdisj e' (List.mem_cons_of_mem _ he') q hq
      · have hqe : q = folderTagOf pr folder e := List.mem_singleton.mp hq
        rw [hqe]
        exact hpw.1 e' he'

theorem buildFnameMap_go :
    ∀ (paths : List String) (acc : List (String × String)),
      (∀ p ∈ paths, acc.find? (fun q => q.1 == pyBasename p) = none) →
      List.Pairwise (fun p q => pyBasename p ≠ pyBasename q) paths →
      List.foldl (fun m p =>
        let fn := pyBasename p
        if (m.find? (fun q => q.1 == fn)).isSome then m else m ++ [(fn, p)]) acc paths =
      acc ++ paths.map (fun p => (pyBasename p, p)) := by
  intro paths
  induction paths with
  | nil =>
    intro acc _ _
    simp
  | cons p rest ih =>
    intro acc hdisj hpw
    rw [List.pairwise_cons] at hpw
    have hfind : acc.find? (fun q => q.1 == pyBasename p) = none :=
      hdisj p (List.mem_cons_self p rest)
    simp only [List.foldl_cons, hfind, Option.isSome_none, Bool.false_eq_true, if_false]
    rw [ih (acc ++ [(pyBasename p, p)]) ?_ hpw.2]
    · simp
    · intro p' hp'
      rw [List.find?_eq_none]
      intro x hx
      rcases List.mem_append.mp hx with hx | hx
      · exact List.find?_eq_none.mp (hdisj p' (List.mem_cons_of_mem _ hp')) x hx
      · have hxe : x = (pyBasename p, p) := List.mem_singleton.mp hx
        rw [hxe]
        simp [hpw.1 p' hp']

theorem buildFnameMap_eq (paths : List String)
    (hpw : List.Pairwise (fun p q => pyBasename p ≠ pyBasename q) paths) :
    buildFnameMap paths = paths.map (fun p => (pyBasename p, p)) := by
  unfold buildFnameMap
  rw [buildFnameMap_go paths [] (fun p _ => rfl) hpw]
  simp

theorem find?_fnameMap (paths : List String)
    (hpw : List.Pairwise (fun p q => pyBasename p ≠ pyBasename q) paths) :
    ∀ p ∈ paths,
      (paths.map (fun q => (pyBasename q, q))).find? (fun q => q.1 == pyBasename p) =
        some (pyBasename p, p) := by
  induction paths with
  | nil =>
    intro p hp
    cases hp
  | cons p0 rest ih =>
    rw [List.pairwise_cons] at hpw
    intro p hp
    rcases List.mem_cons.mp hp with rfl | hp'
    · rw [List.map_cons]
      exact List.find?_cons_of_pos _ (by simp)
    · rw [List.map_cons, List.find?_cons_of_neg _ (by simp [hpw.1 p hp'])]
      exact ih hpw.2 p hp'

theorem restore_foldl_eq (fmap : List (String × String)) (pr folder : String) :
    ∀ (entries : List StagingEntry) (acc : DB),
      (∀ e ∈ entries, fmap.find? (fun q => q.1 == pyBasename e.path) =
        some (pyBasename e.path, e.path)) →
      (∀ e ∈ entries, acc.staging.find? (fun q => q.path == e.path) = none) →
      List.Pairwise (fun a b : StagingEntry => a.path ≠ b.path) entries →
      (List.foldl (restoreStep fmap) acc (entries.map (folderTagOf pr folder))).staging =
        acc.staging ++ entries.map restoredEntryOf := by
  intro entries
  induction entries with
  | nil =>
    intro acc _ _ _
    simp
  | cons e rest ih =>
    intro acc hfind hfresh hpw
    rw [List.pairwise_cons] at hpw
    have hstep : restoreStep fmap acc (folderTagOf pr folder e) =
        stageImage acc e.path e.cat
          (e.cat ++ "_" ++ fmt3 (extractTagIndex e.name) ++ (splitExt (pyBasename e.path)).2) := by
      unfold restoreStep folderTagOf
      rw [show (⟨pr, folder, pyBasename e.path, e.cat, extractTagIndex e.name⟩ :
          FolderTagRec).filename = pyBasename e.path from rfl]
      rw [hfind e (List.mem_cons_self e rest)]
      show (match lookupStaged acc.staging e.path with
            | some _ => acc
            | none => stageImage acc e.path e.cat _) = _
      rw [show lookupStaged acc.staging e.path = none from
        hfresh e (List.mem_cons_self e rest)]
    have hstage : (stageImage acc e.path e.cat
        (e.cat ++ "_" ++ fmt3 (extractTagIndex e.name) ++
          (splitExt (pyBasename e.path)).2)).staging =
        acc.staging ++ [restoredEntryOf e] := by
      unfold stageImage restoredEntryOf
      have hself : acc.staging.filter (fun q => !(q.path == e.path)) = acc.staging := by
        rw [List.filter_eq_self]
        intro q hq
        have := List.find?_eq_none.mp (hfresh e (List.mem_cons_self e rest)) q hq
        simpa using this
      simp [hself]
    simp only [List.map_cons, List.foldl_cons, hstep]
    rw [ih (stageImage acc e.path e.cat
        (e.cat ++ "_" ++ fmt3 (extractTagIndex e.name) ++ (splitExt (pyBasename e.path)).2))
      (fun e' he' => hfind e' (List.mem_cons_of_mem _ he')) ?_ hpw.2]
    · rw [hstage]
      simp
    · intro e' he'
      rw [hstage, List.find?_eq_none]
      intro x hx
      rcases List.mem_append.mp hx with hx | hx
      · exact List.find?_eq_none.mp (hfresh e' (List.mem_cons_of_mem _ he')) x hx
      · have hxe : x = restoredEntryOf e := List.mem_singleton.mp hx
        rw [hxe]
        have : e.path ≠ e'.path := hpw.1 e' he'
        simp [restoredEntryOf, this]

theorem find?_restored (entries : List StagingEntry)
    (hpw : List.Pairwise (fun a b : StagingEntry => a.path ≠ b.path) entries) :
    ∀ e ∈ entries,
      (entries.map restoredEntryOf).find? (fun q => q.path == e.path) =
        some (restoredEntryOf e) := by
  induction entries with
  | nil =>
    intro e he
    cases he
  | cons e0 rest ih =>
    rw [List.pairwise_cons] at hpw
    intro e he
    rcases List.mem_cons.mp he with rfl | he'
    · rw [List.map_cons]
      exact List.find?_cons_of_pos _ (by simp [restoredEntryOf])
    · rw [List.map_cons, List.find?_cons_of_neg _ (by simp [restoredEntryOf, hpw.1 e he'])]
      exact ih hpw.2 e he'

/-- C7 (amended): a folder-tag save followed by restore on the same
folder, the same file list and the same profile, with a fresh (empty)
staging ledger and a fresh snapshot store, recreates a `StagingEntry`
with the same category and the same numeric index for every staged file
— where the index is the one `save_folder_tags` actually extracts: the
**first** `_NNN` segment of the computed name (`re.search(r'_(\d+)')`),
not the trailing one (see the counterexample), and basenames are
pairwise distinct (restore keys on filename only). -/
theorem C7_folder_tag_roundtrip (db : DB) (folder : String) (profile : Option String)
    (hne : db.staging ≠ [])
    (hft : db.folderTags = [])
    (hnodup : db.staging.Nodup)
    (hunder : ∀ e ∈ db.staging, pyStartsWith e.path folder = true)
    (hbase : ∀ e1 ∈ db.staging, ∀ e2 ∈ db.staging,
      pyBasename e1.path = pyBasename e2.path → e1 = e2) :
    ∀ e ∈ db.staging,
      lookupStaged
        (restoreFolderTags (clearStagingArea (saveFolderTags db folder profile)) folder
          (db.staging.map (fun e => e.path)) profile).staging e.path =
      some (restoredEntryOf e) := by
  have hpwBn : List.Pairwise
      (fun a b : StagingEntry => pyBasename a.path ≠ pyBasename b.path) db.staging := by
    refine hnodup.imp_of_mem ?_
    intro a b ha hb hab hcon
    exact hab (hbase a ha b hb hcon)
  have hpwPath : List.Pairwise (fun a b : StagingEntry => a.path ≠ b.path) db.staging :=
    hpwBn.imp (fun h hp => h (congrArg pyBasename hp))
  have hpwPaths : List.Pairwise (fun p q : String => pyBasename p ≠ pyBasename q)
      (db.staging.map (fun e => e.path)) := List.pairwise_map.mpr hpwBn
  have hsave : (saveFolderTags db folder profile).folderTags =
      db.staging.map (folderTagOf (profile.getD "Default") folder) := by
    have hne' : db.staging.isEmpty = false := by
      cases hl : db.staging.isEmpty
      · rfl
      · exact absurd (List.isEmpty_iff.mp hl) hne
    simp only [saveFolderTags, hne', Bool.false_eq_true, if_false]
    rw [hft, save_foldl_eq (profile.getD "Default") folder db.staging []
      (fun e _ q hq => absurd hq (List.not_mem_nil q)) hpwBn hunder]
    simp
  have hmapEq : buildFnameMap (db.staging.map (fun e => e.path)) =
      (db.staging.map (fun e => e.path)).map (fun p => (pyBasename p, p)) :=
    buildFnameMap_eq _ hpwPaths
  have hfind : ∀ e ∈ db.staging,
      (buildFnameMap (db.staging.map (fun e => e.path))).find?
        (fun q => q.1 == pyBasename e.path) = some (pyBasename e.path, e.path) := by
    intro e he
    rw [hmapEq]
    exact find?_fnameMap _ hpwPaths e.path (List.mem_map_of_mem _ he)
  have hrows : (clearStagingArea (saveFolderTags db folder profile)).folderTags.filter
      (fun r => r.profile == profile.getD "Default" && r.folder == folder) =
      db.staging.map (folderTagOf (profile.getD "Default") folder) := by
    show (saveFolderTags db folder profile).folderTags.filter
      (fun r => r.profile == profile.getD "Default" && r.folder == folder) = _
    rw [hsave, List.filter_eq_self]
    intro r hr
    rcases List.mem_map.mp hr with ⟨e, _, rfl⟩
    simp [folderTagOf]
  have hfold := restore_foldl_eq (buildFnameMap (db.staging.map (fun e => e.path)))
    (profile.getD "Default") folder db.staging
    (clearStagingArea (saveFolderTags db folder profile)) hfind
    (fun e _ => rfl) hpwPath
  have hstaging : (restoreFolderTags (clearStagingArea (saveFolderTags db folder profile))
      folder (db.staging.map (fun e => e.path)) profile).staging =
      db.staging.map restoredEntryOf := by
    simp only [restoreFolderTags]
    rw [hrows, hfold]
    simp [clearStagingArea]
  intro e he
  show (restoreFolderTags (clearStagingArea (saveFolderTags db folder profile)) folder
      (db.staging.map (fun e => e.path)) profile).staging.find?
      (fun q => q.path == e.path) = some (restoredEntryOf e)
  rw [hstaging]
  exact find?_restored db.staging hpwPath e he

/-- Witness for C7 at a concrete state (a suffixed computed name, one
staged file). -/
theorem C7_folder_tag_roundtrip_witness :
    lookupStaged
      (restoreFolderTags (clearStagingArea (saveFolderTags c7db "src" (some "P"))) "src"
        (c7db.staging.map (fun e => e.path)) (some "P")).staging "src/a.jpg" =
    some (restoredEntryOf ⟨"src/a.jpg", "Action", "Action_010_2.jpg", true⟩) :=
  C7_folder_tag_roundtrip c7db "src" (some "P") (by decide) rfl (by decide) (by decide)
    (by decide) ⟨"src/a.jpg", "Action", "Action_010_2.jpg", true⟩ (by decide)
